import Mathlib

/-!
# NSudoku: a shallow embedding of `nsudoku.hpp`

The four function templates of namespace `sudoku` (`valid_move`, `is_solved`,
`solvable`, `solve`) are embedded as functions over a board of natural numbers,
with the block size `N` as an ordinary argument.

* The board `M` is a `List Nat`; a read `M[j]` is `M[j]?`, and a read outside the
  buffer makes the whole call yield `none` (the C++ behaviour is undefined there).
* `std::bitset<sq + 1>` is a `List Bool` of length `sq + 1`; `set` at a position
  outside the set yields `none` (C++ throws `std::out_of_range`).
* Functions that write the board (`solvable`, `solve`) return the final board
  next to their verdict.
* Every `for` statement is an instance of `forRange`, which keeps the guard and
  the stride of the source; an early `return` inside a loop is `Flow.ret`.
* Index and cell arithmetic is done in `Nat`: the embedding covers boards whose
  size fits the machine index types of the source.
-/

namespace sudoku

/-- The flat board buffer `IntegralType *M`. -/
abbrev Board := List Nat

/-- Outcome of one loop iteration (or of a whole loop): either the enclosing
function returns with a value, or control falls through with the loop state. -/
inductive Flow (ρ σ : Type) where
  | ret : ρ → Flow ρ σ
  | next : σ → Flow ρ σ
deriving DecidableEq, Repr

/-- Iterations of `for (j = ..; j < hi; j += step) body`, starting at `j`, at most
`fuel` of them; `none` when the guard still holds once the fuel is used up. -/
def forLoop {ρ σ : Type} (hi step : Nat) (body : Nat → σ → Option (Flow ρ σ)) :
    Nat → Nat → σ → Option (Flow ρ σ)
  | 0, j, s => if j < hi then none else some (Flow.next s)
  | fuel + 1, j, s =>
    if j < hi then
      match body j s with
      | some (Flow.next s1) => forLoop hi step body fuel (j + step) s1
      | r => r
    else some (Flow.next s)

/-- The statement `for (j = lo; j < hi; j += step) body`: with a positive stride
the guard fails after at most `hi - lo` iterations. -/
def forRange {ρ σ : Type} (lo hi step : Nat) (body : Nat → σ → Option (Flow ρ σ))
    (s : σ) : Option (Flow ρ σ) :=
  forLoop hi step body (hi - lo) lo s

/-- The statement `if (M[j] == t) return false;`. -/
def hit (M : Board) (t : Nat) (j : Nat) (_ : Unit) : Option (Flow Bool Unit) :=
  match M[j]? with
  | none => none
  | some x => if x = t then some (Flow.ret false) else some (Flow.next ())

/-- The function `valid_move<IntegralType, N>(M, i, t)`. -/
def valid_move (N : Nat) (M : Board) (i : Nat) (t : Nat) : Option Bool :=
  let sq := N * N
  let cb := sq * N
  let ts := sq * sq
  let cbi := i % sq
  let rbi := i - cbi
  let sbi := (cbi - (cbi % N)) + (rbi - (rbi % cb))
  match forRange rbi (rbi + sq) 1 (hit M t) () with
  | none => none
  | some (Flow.ret b) => some b
  | some (Flow.next _) =>
    match forRange cbi ts sq (hit M t) () with
    | none => none
    | some (Flow.ret b) => some b
    | some (Flow.next _) =>
      match forRange sbi (sbi + cb) sq
          (fun ri _ => forRange 0 N 1 (fun ci u => hit M t (ri + ci) u) ()) () with
      | none => none
      | some (Flow.ret b) => some b
      | some (Flow.next _) => some true

/-- A fresh `std::bitset<sq + 1>`, all bits clear. -/
def bitsetNew (sq : Nat) : List Bool := List.replicate (sq + 1) false

/-- The call `value_found.set(pos, true)`; out of range when `pos` is not a position. -/
def bitsetSet (bs : List Bool) (pos : Nat) : Option (List Bool) :=
  if pos < bs.length then some (bs.set pos true) else none

/-- The call `value_found.all()`. -/
def bitsetAll (bs : List Bool) : Bool := bs.all id

/-- The call `value_found.reset()`. -/
def bitsetReset (bs : List Bool) : List Bool := List.replicate bs.length false

/-- The statement `value_found.set(M[j], true);`. -/
def mark (M : Board) (j : Nat) (bs : List Bool) : Option (Flow Bool (List Bool)) :=
  match M[j]? with
  | none => none
  | some x =>
    match bitsetSet bs x with
    | none => none
    | some bs1 => some (Flow.next bs1)

/-- The statement `if (value_found.all()) value_found.reset(); else return false;`
applied to the outcome of the marking scan before it. -/
def settle (r : Option (Flow Bool (List Bool))) : Option (Flow Bool (List Bool)) :=
  match r with
  | none => none
  | some (Flow.ret b) => some (Flow.ret b)
  | some (Flow.next bs) =>
    if bitsetAll bs then some (Flow.next (bitsetReset bs)) else some (Flow.ret false)

/-- The statement `value_found.set(0, true);` followed by a marking scan. -/
def sentinel (bs : List Bool)
    (scan : List Bool → Option (Flow Bool (List Bool))) : Option (Flow Bool (List Bool)) :=
  match bitsetSet bs 0 with
  | none => none
  | some bs1 => scan bs1

/-- The function `is_solved<IntegralType, N>(M)`. -/
def is_solved (N : Nat) (M : Board) : Option Bool :=
  let sq := N * N
  let cb := sq * N
  let ts := sq * sq
  let value_found := bitsetNew sq
  match forRange 0 ts sq (fun ri vf =>
      settle (sentinel vf (forRange 0 sq 1 (fun ci vf1 => mark M (ri + ci) vf1))))
      value_found with
  | none => none
  | some (Flow.ret b) => some b
  | some (Flow.next vf) =>
    match forRange 0 sq 1 (fun ci vf1 =>
        settle (sentinel vf1 (forRange 0 ts sq (fun ri vf2 => mark M (ri + ci) vf2))))
        vf with
    | none => none
    | some (Flow.ret b) => some b
    | some (Flow.next vf) =>
      match forRange 0 ts cb (fun sri vf1 =>
          forRange sri (sri + sq) N (fun sci vf2 =>
            settle (sentinel vf2 (forRange sci (sci + cb) sq (fun ri vf3 =>
              forRange 0 N 1 (fun ci vf4 => mark M (ri + ci) vf4) vf3)))) vf1) vf with
      | none => none
      | some (Flow.ret b) => some b
      | some (Flow.next _) => some true

/-- The function `solvable<IntegralType, N>(M)`: the verdict and the board left behind. -/
def solvable (N : Nat) (M : Board) : Option (Bool × Board) :=
  let sq := N * N
  let ts := sq * sq
  match forRange 0 ts 1 (fun i (M : Board) =>
      match M[i]? with
      | none => none
      | some temp =>
        if temp ≠ 0 then
          let M1 := M.set i 0
          match valid_move N M1 i temp with
          | none => none
          | some valid =>
            let M2 := M1.set i temp
            if !valid then some (Flow.ret (false, M2)) else some (Flow.next M2)
        else some (Flow.next M)) M with
  | none => none
  | some (Flow.ret r) => some r
  | some (Flow.next M1) => some (true, M1)

/-- The body of the candidate loop of `attempt` at cell `i` for the
candidate `t`: `if (valid_move(M, i, t)) { M[i] = t; if (attempt(i+1)) return true; }`,
where `rest` stands for the call `attempt(i+1)`. -/
def candidate (N i : Nat) (rest : Board → Option (Bool × Board)) (t : Nat) (M : Board) :
    Option (Flow (Bool × Board) Board) :=
  match valid_move N M i t with
  | none => none
  | some false => some (Flow.next M)
  | some true =>
    match rest (M.set i t) with
    | none => none
    | some (true, M1) => some (Flow.ret (true, M1))
    | some (false, M1) => some (Flow.next M1)

/-- The closure `attempt` of `solve`, with the board passed explicitly; `fuel`
bounds the depth of the recursion, and `none` is returned when it is used up. -/
def attempt (N : Nat) : Nat → Nat → Board → Option (Bool × Board)
  | 0, _, _ => none
  | fuel + 1, i, M =>
    let sq := N * N
    let ts := sq * sq
    if i = ts then
      match is_solved N M with
      | none => none
      | some b => some (b, M)
    else
      match M[i]? with
      | none => none
      | some x =>
        if x ≠ 0 then attempt N fuel (i + 1) M
        else
          match forRange 1 (sq + 1) 1 (candidate N i (attempt N fuel (i + 1))) M with
          | none => none
          | some (Flow.ret r) => some r
          | some (Flow.next M1) => some (false, M1.set i 0)

/-- The function `solve<IntegralType, N>(M)`: `attempt(0)`; the recursion is at most
`N^4 + 1` deep. -/
def solve (N : Nat) (M : Board) : Option (Bool × Board) :=
  attempt N (N * N * (N * N) + 1) 0 M

/-- A loop outcome meets `Q` when it returns and `P` when it falls through. -/
def Flow.sat {ρ σ : Type} (Q : ρ → Prop) (P : σ → Prop) : Flow ρ σ → Prop
  | Flow.ret r => Q r
  | Flow.next s => P s

/-- A computation on the marker set that never returns and sets exactly the
positions in `V` (all of them positions of a set of `n` markers). -/
def Marks (f : List Bool → Option (Flow Bool (List Bool))) (V : Nat → Prop) (n : Nat) :
    Prop :=
  ∀ bs : List Bool, bs.length = n →
    ∃ bs1, f bs = some (Flow.next bs1) ∧ bs1.length = n ∧
      ∀ p, bs1[p]? = some true ↔ (bs[p]? = some true ∨ V p)

/-- Cell `j` lies in row `r` of the grid. -/
def inRow (N r j : Nat) : Prop := j / (N * N) = r

/-- Cell `j` lies in column `c` of the grid. -/
def inCol (N c j : Nat) : Prop := j % (N * N) = c

/-- Cell `j` lies in the subgrid of band `a` and stack `b`. -/
def inSub (N a b j : Nat) : Prop := j / (N * N) / N = a ∧ j % (N * N) / N = b

/-- Cell `j` shares the row, the column or the subgrid of cell `i`. -/
def peer (N i j : Nat) : Prop :=
  inRow N (i / (N * N)) j ∨ inCol N (i % (N * N)) j ∨
    inSub N (i / (N * N) / N) (i % (N * N) / N) j

/-- Well-formed board for block size `N`: `N^4` cells, each in `[0, N^2]`. -/
structure WellFormed (N : Nat) (M : Board) : Prop where
  length_eq : M.length = N * N * (N * N)
  cell_le : ∀ (j x : Nat), M[j]? = some x → x ≤ N * N

/-- Every unit shows every digit: what the marker test of `is_solved` checks,
in terms of the scanned positions. -/
def SeenAt (N : Nat) (M : Board) : Prop :=
  (∀ r, r < N * N → ∀ d, 1 ≤ d → d ≤ N * N → ∃ l, l < N * N ∧ M[N * N * r + l]? = some d) ∧
  (∀ c, c < N * N → ∀ d, 1 ≤ d → d ≤ N * N → ∃ l, l < N * N ∧ M[N * N * l + c]? = some d) ∧
  (∀ a b, a < N → b < N → ∀ d, 1 ≤ d → d ≤ N * N →
    ∃ k l, k < N ∧ l < N ∧ M[N * N * (N * a + k) + (N * b + l)]? = some d)

/-- Every row, column and subgrid shows every digit of `1..N^2` (at least once). -/
def AllSeen (N : Nat) (M : Board) : Prop :=
  (∀ r, r < N * N → ∀ d, 1 ≤ d → d ≤ N * N →
    ∃ j, j < N * N * (N * N) ∧ inRow N r j ∧ M[j]? = some d) ∧
  (∀ c, c < N * N → ∀ d, 1 ≤ d → d ≤ N * N →
    ∃ j, j < N * N * (N * N) ∧ inCol N c j ∧ M[j]? = some d) ∧
  (∀ a b, a < N → b < N → ∀ d, 1 ≤ d → d ≤ N * N →
    ∃ j, j < N * N * (N * N) ∧ inSub N a b j ∧ M[j]? = some d)

/-- Every row, column and subgrid holds every digit of `1..N^2` exactly once:
each unit is a permutation of `1..N^2`. -/
def Solved (N : Nat) (M : Board) : Prop :=
  (∀ r, r < N * N → ∀ d, 1 ≤ d → d ≤ N * N →
    ∃! j, j < N * N * (N * N) ∧ inRow N r j ∧ M[j]? = some d) ∧
  (∀ c, c < N * N → ∀ d, 1 ≤ d → d ≤ N * N →
    ∃! j, j < N * N * (N * N) ∧ inCol N c j ∧ M[j]? = some d) ∧
  (∀ a b, a < N → b < N → ∀ d, 1 ≤ d → d ≤ N * N →
    ∃! j, j < N * N * (N * N) ∧ inSub N a b j ∧ M[j]? = some d)

/-- The conflict that `solvable` looks for at cell `i`: the cell holds a nonzero
value that another cell of its row, column or subgrid holds too. -/
def Conflict (N : Nat) (M : Board) (i : Nat) : Prop :=
  ∃ x j, x ≠ 0 ∧ M[i]? = some x ∧ j < N * N * (N * N) ∧ j ≠ i ∧ peer N i j ∧ M[j]? = some x

/-- Board `S` agrees with board `M` on every cell that is nonzero in `M`. -/
def Agrees (M S : Board) : Prop :=
  ∀ (j x : Nat), M[j]? = some x → x ≠ 0 → S[j]? = some x

/-- Board `S` is a solution of the puzzle `M`: a complete board of `N^4` cells
that keeps the nonzero cells of `M` and in which every row, column and subgrid
is a permutation of `1..N^2`. -/
def Solution (N : Nat) (M S : Board) : Prop :=
  S.length = N * N * (N * N) ∧ Agrees M S ∧ Solved N S

/-- Lexicographic order on boards, cells compared in ascending flat index
order: equal, or smaller at the first cell where they differ. -/
def LexLE (A B : Board) : Prop :=
  A = B ∨ ∃ k : Nat, (∀ j : Nat, j < k → A[j]? = B[j]?) ∧
    ∃ x y : Nat, A[k]? = some x ∧ B[k]? = some y ∧ x < y

/-- What a successful search from cell `i` on puzzle `M` leaves behind. -/
def Found (N : Nat) (M M1 : Board) : Prop :=
  is_solved N M1 = some true ∧ WellFormed N M1 ∧ Agrees M M1 ∧
    ∀ S, Solution N M S → LexLE M1 S

/-- No two distinct cells that share a row, a column or a subgrid hold the
same nonzero value. -/
def NoClash (N : Nat) (M : Board) : Prop :=
  ∀ (i j x : Nat), i < N ^ 4 → j < N ^ 4 → i ≠ j → peer N i j → x ≠ 0 →
    M[i]? = some x → M[j]? ≠ some x

/-- The empty 4×4 board (`N = 2`). -/
def blank4 : Board := List.replicate 16 0

/-- A solved 4×4 board: the one `solve` reaches from the empty board. -/
def first4 : Board := [1, 2, 3, 4, 3, 4, 1, 2, 2, 1, 4, 3, 4, 3, 2, 1]

/-- A 4×4 board whose first row holds the digit 3 twice. -/
def clash4 : Board := [3, 0, 3, 0, 0, 0, 0, 0, 0, 0, 0, 0, 0, 0, 0, 0]

/-- A 4×4 board with a few given cells and a solution. -/
def given4 : Board := [0, 0, 3, 0, 0, 4, 0, 0, 0, 0, 0, 2, 1, 0, 0, 0]

/-- The 4×4 board of the example: cells 0, 1, 2 hold 1, 2, 3, cell 7 holds 4. -/
def stuck4 : Board := [1, 2, 3, 0, 0, 0, 0, 4, 0, 0, 0, 0, 0, 0, 0, 0]

/-- The column base index of `valid_move`: `auto cbi = i % sq;`. -/
def cbi (N i : Nat) : Nat := i % (N * N)

/-- The row base index of `valid_move`: `auto rbi = i - cbi;`. -/
def rbi (N i : Nat) : Nat := i - cbi N i

/-- The subgrid base index of `valid_move`:
`auto sbi = (cbi - (cbi % N)) + (rbi - (rbi % cb));`. -/
def sbi (N i : Nat) : Nat :=
  (cbi N i - (cbi N i % N)) + (rbi N i - (rbi N i % (N * N * N)))

/-- A loop body that reads cell `j` and goes on: it notes the index read. -/
def note (j : Nat) (seen : List Nat) : Option (Flow Bool (List Nat)) :=
  some (Flow.next (seen ++ [j]))

/-- The indices noted by a scan that ran to its end. -/
def readsOf (r : Option (Flow Bool (List Nat))) : List Nat :=
  match r with
  | some (Flow.next seen) => seen
  | _ => []

/-- The cells read by the row scan of `valid_move` when it runs to its end. -/
def rowScan (N i : Nat) : List Nat :=
  readsOf (forRange (rbi N i) (rbi N i + N * N) 1 note [])

/-- The cells read by the column scan of `valid_move` when it runs to its end. -/
def colScan (N i : Nat) : List Nat :=
  readsOf (forRange (cbi N i) (N * N * (N * N)) (N * N) note [])

/-- The cells read by the subgrid scan of `valid_move` when it runs to its end. -/
def subScan (N i : Nat) : List Nat :=
  readsOf (forRange (sbi N i) (sbi N i + N * N * N) (N * N)
    (fun ri seen => forRange 0 N 1 (fun ci seen1 => note (ri + ci) seen1) seen) [])

/-- A scan that appends the indices `L` to what was noted before. -/
def Notes (f : List Nat → Option (Flow Bool (List Nat))) (L : List Nat) : Prop :=
  ∀ seen, f seen = some (Flow.next (seen ++ L))

/-- The closure `attempt` with its final check `is_solved<IntegralType, N>(M)`
taken as the parameter `check`; everything else is `attempt`. -/
def attemptWith (N : Nat) (check : Board → Option Bool) :
    Nat → Nat → Board → Option (Bool × Board)
  | 0, _, _ => none
  | fuel + 1, i, M =>
    let sq := N * N
    let ts := sq * sq
    if i = ts then
      match check M with
      | none => none
      | some b => some (b, M)
    else
      match M[i]? with
      | none => none
      | some x =>
        if x ≠ 0 then attemptWith N check fuel (i + 1) M
        else
          match forRange 1 (sq + 1) 1 (candidate N i (attemptWith N check fuel (i + 1))) M with
          | none => none
          | some (Flow.ret r) => some r
          | some (Flow.next M1) => some (false, M1.set i 0)

/-- The final check `is_solved`, with a missing verdict (the `std::out_of_range`
of `bitset::set`) read as the verdict that ends the search where it stands: an
exception leaves every frame of `attempt` at once and writes nothing more, as a
true verdict does. -/
def caught (N : Nat) (M : Board) : Option Bool :=
  match is_solved N M with
  | none => some true
  | some b => some b

/-- A 4×4 board with a given cell above `N^2` and the digit 3 twice in the
first row. -/
def wild4 : Board := [3, 0, 3, 0, 9, 0, 0, 0, 0, 0, 0, 0, 0, 0, 0, 0]

/-- A 4×4 board that is complete and whose last cell is above `N^2`. -/
def over4 : Board := [1, 2, 3, 4, 3, 4, 1, 2, 2, 1, 4, 3, 4, 3, 2, 9]

/-! ## Loop rules -/

theorem forLoop_zero {ρ σ : Type} (hi step : Nat) (body : Nat → σ → Option (Flow ρ σ))
    (j : Nat) (s : σ) :
    forLoop hi step body 0 j s = if j < hi then none else some (Flow.next s) := rfl

theorem forLoop_succ {ρ σ : Type} (hi step : Nat) (body : Nat → σ → Option (Flow ρ σ))
    (fuel j : Nat) (s : σ) :
    forLoop hi step body (fuel + 1) j s =
      if j < hi then
        match body j s with
        | some (Flow.next s1) => forLoop hi step body fuel (j + step) s1
        | r => r
      else some (Flow.next s) := rfl

theorem forLoop_exit {ρ σ : Type} (hi step : Nat) (body : Nat → σ → Option (Flow ρ σ))
    (fuel j : Nat) (s : σ) (h : hi ≤ j) :
    forLoop hi step body fuel j s = some (Flow.next s) := by
  cases fuel with
  | zero => simp [forLoop_zero, Nat.not_lt.mpr h]
  | succ n => simp [forLoop_succ, Nat.not_lt.mpr h]

/-- Total-correctness rule: with a positive stride and a body that always
produces an outcome and keeps the invariant, the loop produces an outcome. -/
theorem forLoop_total {ρ σ : Type} (hi step : Nat) (body : Nat → σ → Option (Flow ρ σ))
    (I : Nat → σ → Prop) (Q : ρ → Prop) (hstep : 0 < step)
    (hbody : ∀ j s, j < hi → I j s →
      ∃ r, body j s = some r ∧ r.sat Q (I (j + step))) :
    ∀ fuel j s, hi - j ≤ fuel → I j s →
      ∃ r, forLoop hi step body fuel j s = some r ∧
        r.sat Q (fun s1 => ∃ j1, hi ≤ j1 ∧ I j1 s1) := by
  intro fuel
  induction fuel with
  | zero =>
    intro j s hf hI
    have hj : hi ≤ j := by omega
    exact ⟨Flow.next s, forLoop_exit hi step body 0 j s hj, j, hj, hI⟩
  | succ n ih =>
    intro j s hf hI
    by_cases hj : j < hi
    · obtain ⟨r, hr, hsat⟩ := hbody j s hj hI
      cases r with
      | ret x =>
        refine ⟨Flow.ret x, ?_, hsat⟩
        simp [forLoop_succ, hj, hr]
      | next s1 =>
        have := ih (j + step) s1 (by omega) hsat
        simpa [forLoop_succ, hj, hr] using this
    · have hj2 : hi ≤ j := Nat.le_of_not_lt hj
      exact ⟨Flow.next s, forLoop_exit hi step body (n + 1) j s hj2, j, hj2, hI⟩

/-- Partial-correctness rule: whatever outcome the loop produces meets the
postcondition, when every outcome of the body keeps the invariant. -/
theorem forLoop_sound {ρ σ : Type} (hi step : Nat) (body : Nat → σ → Option (Flow ρ σ))
    (I : Nat → σ → Prop) (Q : ρ → Prop)
    (hbody : ∀ j s r, j < hi → I j s → body j s = some r → r.sat Q (I (j + step))) :
    ∀ fuel j s r, I j s → forLoop hi step body fuel j s = some r →
      r.sat Q (fun s1 => ∃ j1, hi ≤ j1 ∧ I j1 s1) := by
  intro fuel
  induction fuel with
  | zero =>
    intro j s r hI h
    by_cases hj : j < hi
    · simp [forLoop_zero, hj] at h
    · simp [forLoop_zero, hj] at h
      subst h
      exact ⟨j, Nat.le_of_not_lt hj, hI⟩
  | succ n ih =>
    intro j s r hI h
    by_cases hj : j < hi
    · rw [forLoop_succ, if_pos hj] at h
      cases hb : body j s with
      | none => simp [hb] at h
      | some r1 =>
        have hsat := hbody j s r1 hj hI hb
        cases r1 with
        | ret x =>
          simp [hb] at h
          subst h
          exact hsat
        | next s1 =>
          simp [hb] at h
          exact ih (j + step) s1 r hsat h
    · simp [forLoop_succ, hj] at h
      subst h
      exact ⟨j, Nat.le_of_not_lt hj, hI⟩

theorem lt_of_prog_lt {lo step k m hi : Nat} (h1 : lo + k * step < hi)
    (h2 : hi ≤ lo + m * step) : k < m := by
  by_contra hc
  have : m * step ≤ k * step := Nat.mul_le_mul_right step (Nat.le_of_not_lt hc)
  omega

/-- A loop whose body either falls through with the state unchanged or returns
`r0`, according to a property `P` of the iteration number: the loop returns `r0`
exactly when some iteration has `P`. -/
theorem forRange_search {ρ σ : Type} (lo hi step : Nat)
    (body : Nat → σ → Option (Flow ρ σ)) (s0 : σ) (r0 : ρ) (P : Nat → Prop)
    (hstep : 0 < step)
    (hbody : ∀ k, lo + k * step < hi →
      (body (lo + k * step) s0 = some (Flow.next s0) ∧ ¬ P k) ∨
      (body (lo + k * step) s0 = some (Flow.ret r0) ∧ P k)) :
    (forRange lo hi step body s0 = some (Flow.next s0) ∧
        ∀ k, lo + k * step < hi → ¬ P k) ∨
    (forRange lo hi step body s0 = some (Flow.ret r0) ∧
        ∃ k, lo + k * step < hi ∧ P k) := by
  have key := forLoop_total hi step body
    (fun j s => s = s0 ∧ ∃ m, j = lo + m * step ∧ ∀ k, k < m → ¬ P k)
    (fun r => r = r0 ∧ ∃ k, lo + k * step < hi ∧ P k) hstep
    (by
      rintro j s hj ⟨rfl, m, rfl, hm⟩
      rcases hbody m hj with ⟨hb, hp⟩ | ⟨hb, hp⟩
      · refine ⟨Flow.next s, hb, rfl, m + 1, by ring, ?_⟩
        intro k hk
        rcases Nat.lt_succ_iff_lt_or_eq.mp hk with h | h
        · exact hm k h
        · exact h ▸ hp
      · exact ⟨Flow.ret r0, hb, rfl, m, hj, hp⟩)
    (hi - lo) lo s0 (le_refl _) ⟨rfl, 0, by simp, by simp⟩
  obtain ⟨r, hr, hsat⟩ := key
  cases r with
  | ret x =>
    obtain ⟨rfl, hk⟩ := hsat
    exact Or.inr ⟨hr, hk⟩
  | next s1 =>
    obtain ⟨j1, hj1, rfl, m, rfl, hm⟩ := hsat
    exact Or.inl ⟨hr, fun k hk => hm k (lt_of_prog_lt hk hj1)⟩

theorem forRange_marks (lo hi step n : Nat)
    (body : Nat → List Bool → Option (Flow Bool (List Bool))) (V : Nat → Nat → Prop)
    (hstep : 0 < step)
    (hbody : ∀ k, lo + k * step < hi → Marks (body (lo + k * step)) (V k) n) :
    Marks (forRange lo hi step body) (fun p => ∃ k, lo + k * step < hi ∧ V k p) n := by
  intro bs hbs
  have key := forLoop_total hi step body
    (fun j s => s.length = n ∧ ∃ m, j = lo + m * step ∧
      ∀ p, s[p]? = some true ↔ (bs[p]? = some true ∨ ∃ k, k < m ∧ lo + k * step < hi ∧ V k p))
    (fun _ => False) hstep
    (by
      rintro j s hj ⟨hlen, m, rfl, hm⟩
      obtain ⟨bs1, hb, hlen1, hp⟩ := hbody m hj s hlen
      refine ⟨Flow.next bs1, hb, hlen1, m + 1, by ring, ?_⟩
      intro p
      rw [hp p, hm p]
      constructor
      · rintro ((h | ⟨k, hk, hk2, hv⟩) | h)
        · exact Or.inl h
        · exact Or.inr ⟨k, by omega, hk2, hv⟩
        · exact Or.inr ⟨m, by omega, hj, h⟩
      · rintro (h | ⟨k, hk, hk2, hv⟩)
        · exact Or.inl (Or.inl h)
        · rcases Nat.lt_succ_iff_lt_or_eq.mp hk with h | h
          · exact Or.inl (Or.inr ⟨k, h, hk2, hv⟩)
          · subst h
            exact Or.inr hv)
    (hi - lo) lo bs (le_refl _) ⟨hbs, 0, by simp, by simp⟩
  obtain ⟨r, hr, hsat⟩ := key
  cases r with
  | ret x => exact absurd hsat id
  | next s1 =>
    obtain ⟨j1, hj1, hlen, m, rfl, hm⟩ := hsat
    refine ⟨s1, hr, hlen, ?_⟩
    intro p
    rw [hm p]
    constructor
    · rintro (h | ⟨k, _, hk2, hv⟩)
      · exact Or.inl h
      · exact Or.inr ⟨k, hk2, hv⟩
    · rintro (h | ⟨k, hk2, hv⟩)
      · exact Or.inl h
      · exact Or.inr ⟨k, lt_of_prog_lt hk2 hj1, hk2, hv⟩

theorem mark_marks (M : Board) (j x n : Nat) (hx : M[j]? = some x) (hn : x < n) :
    Marks (mark M j) (fun p => p = x) n := by
  intro bs hbs
  refine ⟨bs.set x true, ?_, by simp [hbs], ?_⟩
  · simp [mark, hx, bitsetSet, hbs, hn]
  · intro p
    by_cases hp : p = x
    · subst hp
      simp [List.getElem?_set, hbs, hn]
    · have : x ≠ p := fun h => hp h.symm
      simp [List.getElem?_set, this, hp]

/-- One unit test of `is_solved`: sentinel, marking scan, `all()` check. -/
theorem settle_sentinel (sq : Nat) (scan : List Bool → Option (Flow Bool (List Bool)))
    (V : Nat → Prop) (hscan : Marks scan V (sq + 1)) :
    (settle (sentinel (bitsetNew sq) scan) = some (Flow.next (bitsetNew sq)) ∧
        ¬ ¬ ∀ d, 1 ≤ d → d ≤ sq → V d) ∨
    (settle (sentinel (bitsetNew sq) scan) = some (Flow.ret false) ∧
        ¬ ∀ d, 1 ≤ d → d ≤ sq → V d) := by
  obtain ⟨bs1, h1, hlen1, hp1⟩ := hscan ((bitsetNew sq).set 0 true) (by simp [bitsetNew])
  have hsent : sentinel (bitsetNew sq) scan = some (Flow.next bs1) := by
    simp [sentinel, bitsetSet, bitsetNew, h1]
    simpa [bitsetNew] using h1
  have hchar : ∀ p, bs1[p]? = some true ↔ (p = 0 ∧ True ∨ V p) := by
    intro p
    rw [hp1 p]
    by_cases hp : p = 0
    · subst hp; simp [bitsetNew]
    · have : ¬ (0 = p) := fun h => hp h.symm
      simp [bitsetNew, List.getElem?_set, this, hp, List.getElem?_replicate]
  have hall : bitsetAll bs1 = true ↔ ∀ d, 1 ≤ d → d ≤ sq → V d := by
    constructor
    · intro h d hd1 hd2
      have hd : d < bs1.length := by omega
      have hmem : bs1[d] ∈ bs1 := List.getElem_mem hd
      have htrue : bs1[d] = true := by
        have := List.all_eq_true.mp h _ hmem
        simpa using this
      have : bs1[d]? = some true := by
        rw [List.getElem?_eq_getElem hd, htrue]
      rcases (hchar d).mp this with ⟨h0, _⟩ | hv
      · omega
      · exact hv
    · intro h
      unfold bitsetAll
      rw [List.all_eq_true]
      intro b hb
      obtain ⟨p, hp, rfl⟩ := List.getElem_of_mem hb
      have : bs1[p]? = some true := by
        apply (hchar p).mpr
        by_cases h0 : p = 0
        · exact Or.inl ⟨h0, trivial⟩
        · exact Or.inr (h p (by omega) (by omega))
      rw [List.getElem?_eq_getElem hp] at this
      simpa using this
  by_cases hA : bitsetAll bs1 = true
  · left
    refine ⟨?_, not_not.mpr (hall.mp hA)⟩
    simp only [settle, hsent]
    simp [hA, bitsetReset, hlen1, bitsetNew]
  · right
    refine ⟨?_, fun h => hA (hall.mpr h)⟩
    simp only [settle, hsent]
    simp [hA]

/-! ## Index arithmetic -/

theorem div_mod_of_eq {m x y j : Nat} (hy : y < m) (hj : j = m * x + y) :
    j / m = x ∧ j % m = y := by
  subst hj
  have hm : 0 < m := by omega
  constructor
  · rw [Nat.mul_add_div hm, Nat.div_eq_of_lt hy, Nat.add_zero]
  · rw [Nat.mul_add_mod, Nat.mod_eq_of_lt hy]

theorem block_lt {N b l : Nat} (hb : b < N) (hl : l < N) : N * b + l < N * N := by
  have : N * (b + 1) ≤ N * N := Nat.mul_le_mul_left N hb
  rw [Nat.mul_add, Nat.mul_one] at this
  omega

theorem div_lt_of_lt_sq {N c : Nat} (hc : c < N * N) : c / N < N :=
  Nat.div_lt_of_lt_mul hc

/-- The cells of row `r` are `sq * r + k` for `k < sq`. -/
theorem row_cells {N r : Nat} (hr : r < N * N) (j : Nat) :
    (j < N * N * (N * N) ∧ inRow N r j) ↔ ∃ k, k < N * N ∧ j = N * N * r + k := by
  unfold inRow
  constructor
  · rintro ⟨_, rfl⟩
    exact ⟨j % (N * N), Nat.mod_lt _ (lt_of_le_of_lt (Nat.zero_le _) hr),
      (Nat.div_add_mod j (N * N)).symm⟩
  · rintro ⟨k, hk, rfl⟩
    refine ⟨block_lt hr hk, (div_mod_of_eq hk rfl).1⟩

/-- The cells of column `c` are `c + k * sq` for `k < sq`. -/
theorem col_cells {N c : Nat} (hc : c < N * N) (j : Nat) :
    (j < N * N * (N * N) ∧ inCol N c j) ↔ ∃ k, k < N * N ∧ j = N * N * k + c := by
  unfold inCol
  constructor
  · rintro ⟨hj, rfl⟩
    refine ⟨j / (N * N), Nat.div_lt_of_lt_mul hj, (Nat.div_add_mod j (N * N)).symm⟩
  · rintro ⟨k, hk, rfl⟩
    have := block_lt hk hc
    exact ⟨this, (div_mod_of_eq hc rfl).2⟩

/-- The cells of subgrid `(a, b)` are `sq * (N * a + k) + (N * b + l)` for
`k, l < N`. -/
theorem sub_cells {N a b : Nat} (ha : a < N) (hb : b < N) (j : Nat) :
    (j < N * N * (N * N) ∧ inSub N a b j) ↔
      ∃ k l, k < N ∧ l < N ∧ j = N * N * (N * a + k) + (N * b + l) := by
  unfold inSub
  have hN : 0 < N := by omega
  constructor
  · rintro ⟨hj, rfl, rfl⟩
    refine ⟨j / (N * N) % N, j % (N * N) % N, Nat.mod_lt _ hN, Nat.mod_lt _ hN, ?_⟩
    rw [Nat.div_add_mod, Nat.div_add_mod, Nat.div_add_mod]
  · rintro ⟨k, l, hk, hl, rfl⟩
    have h1 := block_lt ha hk
    have h2 := block_lt hb hl
    obtain ⟨e1, e2⟩ := div_mod_of_eq (x := N * a + k) h2 rfl
    rw [e1, e2]
    exact ⟨block_lt h1 h2, (div_mod_of_eq hk rfl).1, (div_mod_of_eq hl rfl).1⟩

theorem hit_spec (M : Board) (t j : Nat) (hj : j < M.length) :
    (hit M t j () = some (Flow.next ()) ∧ ¬ M[j]? = some t) ∨
    (hit M t j () = some (Flow.ret false) ∧ M[j]? = some t) := by
  unfold hit
  rw [List.getElem?_eq_getElem hj]
  by_cases h : M[j] = t
  · right; simp [h]
  · left; simp [h]

theorem rbi_eq (sq i : Nat) : i - i % sq = sq * (i / sq) := by
  have := Nat.div_add_mod i sq
  omega

theorem sbi_eq (N i : Nat) :
    (i % (N * N) - i % (N * N) % N) + ((i - i % (N * N)) - (i - i % (N * N)) % (N * N * N)) =
      N * N * (N * (i / (N * N) / N)) + N * (i % (N * N) / N) := by
  rw [rbi_eq (N * N) i, Nat.mul_mod_mul_left, rbi_eq N (i % (N * N)), ← Nat.mul_sub,
    rbi_eq N (i / (N * N))]
  omega

/-- What the three scans of `valid_move` decide, in terms of the scanned
positions. -/
theorem valid_move_scan (N : Nat) (M : Board) (i t : Nat)
    (hlen : M.length = N * N * (N * N)) (hi : i < N * N * (N * N)) :
    (valid_move N M i t = some true ∧
      (∀ k, k < N * N → ¬ M[N * N * (i / (N * N)) + k]? = some t) ∧
      (∀ k, k < N * N → ¬ M[N * N * k + i % (N * N)]? = some t) ∧
      (∀ k l, k < N → l < N →
        ¬ M[N * N * (N * (i / (N * N) / N) + k) + (N * (i % (N * N) / N) + l)]? = some t)) ∨
    (valid_move N M i t = some false ∧
      ((∃ k, k < N * N ∧ M[N * N * (i / (N * N)) + k]? = some t) ∨
       (∃ k, k < N * N ∧ M[N * N * k + i % (N * N)]? = some t) ∨
       (∃ k l, k < N ∧ l < N ∧
        M[N * N * (N * (i / (N * N) / N) + k) + (N * (i % (N * N) / N) + l)]? = some t))) := by
  have hsq : 0 < N * N := by
    rcases Nat.eq_zero_or_pos (N * N) with h | h
    · rw [h] at hi; simp at hi
    · exact h
  have hN : 0 < N := by
    rcases Nat.eq_zero_or_pos N with h | h
    · rw [h] at hsq; simp at hsq
    · exact h
  have hr : i / (N * N) < N * N := Nat.div_lt_of_lt_mul hi
  have hc : i % (N * N) < N * N := Nat.mod_lt _ hsq
  have ha : i / (N * N) / N < N := div_lt_of_lt_sq hr
  have hb : i % (N * N) / N < N := div_lt_of_lt_sq hc
  -- the row scan
  have hrow := forRange_search (N * N * (i / (N * N))) (N * N * (i / (N * N)) + N * N) 1
    (hit M t) () false (fun k => M[N * N * (i / (N * N)) + k]? = some t) Nat.one_pos
    (by
      intro k hk
      have hk1 : k < N * N := by omega
      have := block_lt hr hk1
      simpa using hit_spec M t (N * N * (i / (N * N)) + k * 1) (by rw [hlen]; omega))
  -- the column scan
  have hcol := forRange_search (i % (N * N)) (N * N * (N * N)) (N * N)
    (hit M t) () false (fun k => M[N * N * k + i % (N * N)]? = some t) hsq
    (by
      intro k hk
      have e : i % (N * N) + k * (N * N) = N * N * k + i % (N * N) := by ring
      rw [e] at hk ⊢
      exact hit_spec M t _ (by rw [hlen]; exact hk))
  -- the subgrid scan
  have hsub := forRange_search
    (N * N * (N * (i / (N * N) / N)) + N * (i % (N * N) / N))
    (N * N * (N * (i / (N * N) / N)) + N * (i % (N * N) / N) + N * N * N) (N * N)
    (fun ri _ => forRange 0 N 1 (fun ci u => hit M t (ri + ci) u) ()) () false
    (fun k => ∃ l, l < N ∧
      M[N * N * (N * (i / (N * N) / N) + k) + (N * (i % (N * N) / N) + l)]? = some t) hsq
    (by
      intro k hk
      have hk1 : k < N := by
        by_contra hcon
        have : N * N * N ≤ k * (N * N) := by
          calc N * N * N = N * (N * N) := by ring
            _ ≤ k * (N * N) := Nat.mul_le_mul_right _ (Nat.le_of_not_lt hcon)
        omega
      have hin := forRange_search 0 N 1
        (fun ci u => hit M t (N * N * (N * (i / (N * N) / N)) + N * (i % (N * N) / N)
          + k * (N * N) + ci) u) () false
        (fun l => M[N * N * (N * (i / (N * N) / N) + k) + (N * (i % (N * N) / N) + l)]? = some t)
        Nat.one_pos
        (by
          intro l hl
          have hl1 : l < N := by omega
          have e : N * N * (N * (i / (N * N) / N)) + N * (i % (N * N) / N) + k * (N * N)
              + (0 + l * 1) = N * N * (N * (i / (N * N) / N) + k) + (N * (i % (N * N) / N) + l) := by
            ring
          beta_reduce
          rw [e]
          exact hit_spec M t _ (by
            rw [hlen]; exact block_lt (block_lt ha hk1) (block_lt hb hl1)))
      rcases hin with ⟨h1, h2⟩ | ⟨h1, h2⟩
      · left
        refine ⟨h1, ?_⟩
        rintro ⟨l, hl, hm⟩
        exact h2 l (by omega) hm
      · right
        refine ⟨h1, ?_⟩
        obtain ⟨l, hl, hm⟩ := h2
        exact ⟨l, by omega, hm⟩)
  have hvm : valid_move N M i t =
      match forRange (N * N * (i / (N * N))) (N * N * (i / (N * N)) + N * N) 1 (hit M t) () with
      | none => none
      | some (Flow.ret b) => some b
      | some (Flow.next _) =>
        match forRange (i % (N * N)) (N * N * (N * N)) (N * N) (hit M t) () with
        | none => none
        | some (Flow.ret b) => some b
        | some (Flow.next _) =>
          match forRange (N * N * (N * (i / (N * N) / N)) + N * (i % (N * N) / N))
              (N * N * (N * (i / (N * N) / N)) + N * (i % (N * N) / N) + N * N * N) (N * N)
              (fun ri _ => forRange 0 N 1 (fun ci u => hit M t (ri + ci) u) ()) () with
          | none => none
          | some (Flow.ret b) => some b
          | some (Flow.next _) => some true := by
    unfold valid_move
    dsimp only
    rw [sbi_eq N i, rbi_eq (N * N) i]
  rw [hvm]
  rcases hrow with ⟨h1, p1⟩ | ⟨h1, p1⟩
  · rcases hcol with ⟨h2, p2⟩ | ⟨h2, p2⟩
    · rcases hsub with ⟨h3, p3⟩ | ⟨h3, p3⟩
      · left
        rw [h1, h2, h3]
        refine ⟨rfl, ?_, ?_, ?_⟩
        · intro k hk; exact p1 k (by omega)
        · intro k hk
          exact p2 k (by
            have := block_lt hk hc
            calc i % (N * N) + k * (N * N) = N * N * k + i % (N * N) := by ring
              _ < _ := this)
        · intro k l hk hl hm
          exact p3 k (by
            have : k * (N * N) < N * N * N := by
              calc k * (N * N) < N * (N * N) := Nat.mul_lt_mul_of_pos_right hk hsq
                _ = N * N * N := by ring
            omega) ⟨l, hl, hm⟩
      · right
        rw [h1, h2, h3]
        refine ⟨rfl, Or.inr (Or.inr ?_)⟩
        obtain ⟨k, hk, l, hl, hm⟩ := p3
        refine ⟨k, l, ?_, hl, hm⟩
        by_contra hcon
        have : N * N * N ≤ k * (N * N) := by
          calc N * N * N = N * (N * N) := by ring
            _ ≤ k * (N * N) := Nat.mul_le_mul_right _ (Nat.le_of_not_lt hcon)
        omega
    · right
      rw [h1, h2]
      refine ⟨rfl, Or.inr (Or.inl ?_)⟩
      obtain ⟨k, hk, hm⟩ := p2
      refine ⟨k, ?_, hm⟩
      by_contra hcon
      have : N * N * (N * N) ≤ k * (N * N) := Nat.mul_le_mul_right _ (Nat.le_of_not_lt hcon)
      omega
  · right
    rw [h1]
    refine ⟨rfl, Or.inl ?_⟩
    obtain ⟨k, hk, hm⟩ := p1
    exact ⟨k, by omega, hm⟩

/-- The verdict of `valid_move` in terms of the cells sharing a unit with `i`. -/
theorem valid_move_spec (N : Nat) (M : Board) (i t : Nat)
    (hlen : M.length = N * N * (N * N)) (hi : i < N * N * (N * N)) :
    (valid_move N M i t = some true ∧
      ∀ j, j < N * N * (N * N) → peer N i j → ¬ M[j]? = some t) ∨
    (valid_move N M i t = some false ∧
      ∃ j, j < N * N * (N * N) ∧ peer N i j ∧ M[j]? = some t) := by
  have hsq : 0 < N * N := by
    rcases Nat.eq_zero_or_pos (N * N) with h | h
    · rw [h] at hi; simp at hi
    · exact h
  have hr : i / (N * N) < N * N := Nat.div_lt_of_lt_mul hi
  have hc : i % (N * N) < N * N := Nat.mod_lt _ hsq
  have ha : i / (N * N) / N < N := div_lt_of_lt_sq hr
  have hb : i % (N * N) / N < N := div_lt_of_lt_sq hc
  rcases valid_move_scan N M i t hlen hi with ⟨hv, p1, p2, p3⟩ | ⟨hv, p⟩
  · left
    refine ⟨hv, ?_⟩
    intro j hj hp
    rcases hp with h | h | h
    · obtain ⟨k, hk, rfl⟩ := (row_cells hr j).mp ⟨hj, h⟩
      exact p1 k hk
    · obtain ⟨k, hk, rfl⟩ := (col_cells hc j).mp ⟨hj, h⟩
      exact p2 k hk
    · obtain ⟨k, l, hk, hl, rfl⟩ := (sub_cells ha hb j).mp ⟨hj, h⟩
      exact p3 k l hk hl
  · right
    refine ⟨hv, ?_⟩
    rcases p with ⟨k, hk, hm⟩ | ⟨k, hk, hm⟩ | ⟨k, l, hk, hl, hm⟩
    · have := (row_cells hr _).mpr ⟨k, hk, rfl⟩
      exact ⟨_, this.1, Or.inl this.2, hm⟩
    · have := (col_cells hc _).mpr ⟨k, hk, rfl⟩
      exact ⟨_, this.1, Or.inr (Or.inl this.2), hm⟩
    · have := (sub_cells ha hb _).mpr ⟨k, l, hk, hl, rfl⟩
      exact ⟨_, this.1, Or.inr (Or.inr this.2), hm⟩

theorem pow4 (N : Nat) : N ^ 4 = N * N * (N * N) := by ring

theorem Marks_congr {f : List Bool → Option (Flow Bool (List Bool))} {V W : Nat → Prop}
    {n : Nat} (h : Marks f V n) (hVW : ∀ p, V p ↔ W p) : Marks f W n := by
  intro bs hbs
  obtain ⟨bs1, h1, h2, h3⟩ := h bs hbs
  exact ⟨bs1, h1, h2, fun p => by rw [h3 p, hVW p]⟩

theorem mark_marks_cell (M : Board) (j n : Nat) (hj : j < M.length) (hn : M[j] < n) :
    Marks (mark M j) (fun p => M[j]? = some p) n := by
  have hx : M[j]? = some M[j] := List.getElem?_eq_getElem hj
  refine Marks_congr (mark_marks M j M[j] n hx hn) ?_
  intro p
  rw [hx]
  constructor
  · intro h; rw [h]
  · intro h; exact (Option.some.inj h).symm

theorem WellFormed.cell_lt {N : Nat} {M : Board} (h : WellFormed N M) {j : Nat}
    (hj : j < N * N * (N * N)) : ∃ hj1 : j < M.length, M[j] < N * N + 1 := by
  have hj1 : j < M.length := by rw [h.1]; exact hj
  exact ⟨hj1, Nat.lt_succ_of_le (h.2 j M[j] (List.getElem?_eq_getElem hj1))⟩

/-- The row test of `is_solved` for row `k`. -/
theorem row_test (N : Nat) (M : Board) (hM : WellFormed N M) (k : Nat)
    (hk : k < N * N) :
    (settle (sentinel (bitsetNew (N * N))
        (forRange 0 (N * N) 1 (fun ci vf1 => mark M (0 + k * (N * N) + ci) vf1))) =
          some (Flow.next (bitsetNew (N * N))) ∧
      ¬ ¬ ∀ d, 1 ≤ d → d ≤ N * N → ∃ l, l < N * N ∧ M[N * N * k + l]? = some d) ∨
    (settle (sentinel (bitsetNew (N * N))
        (forRange 0 (N * N) 1 (fun ci vf1 => mark M (0 + k * (N * N) + ci) vf1))) =
          some (Flow.ret false) ∧
      ¬ ∀ d, 1 ≤ d → d ≤ N * N → ∃ l, l < N * N ∧ M[N * N * k + l]? = some d) := by
  apply settle_sentinel
  have h := forRange_marks 0 (N * N) 1 (N * N + 1)
    (fun ci vf1 => mark M (0 + k * (N * N) + ci) vf1)
    (fun l p => M[N * N * k + l]? = some p) Nat.one_pos
    (by
      intro l hl
      have hl1 : l < N * N := by omega
      have e : 0 + k * (N * N) + (0 + l * 1) = N * N * k + l := by ring
      obtain ⟨hj1, hlt⟩ := hM.cell_lt (block_lt hk hl1)
      beta_reduce
      rw [e]
      exact mark_marks_cell M _ _ hj1 hlt)
  refine Marks_congr h ?_
  intro p
  constructor
  · rintro ⟨l, hl, hm⟩; exact ⟨l, by omega, hm⟩
  · rintro ⟨l, hl, hm⟩; exact ⟨l, by omega, hm⟩

/-- The column test of `is_solved` for column `k`. -/
theorem col_test (N : Nat) (M : Board) (hM : WellFormed N M) (k : Nat)
    (hk : k < N * N) :
    (settle (sentinel (bitsetNew (N * N))
        (forRange 0 (N * N * (N * N)) (N * N) (fun ri vf2 => mark M (ri + (0 + k * 1)) vf2))) =
          some (Flow.next (bitsetNew (N * N))) ∧
      ¬ ¬ ∀ d, 1 ≤ d → d ≤ N * N → ∃ l, l < N * N ∧ M[N * N * l + k]? = some d) ∨
    (settle (sentinel (bitsetNew (N * N))
        (forRange 0 (N * N * (N * N)) (N * N) (fun ri vf2 => mark M (ri + (0 + k * 1)) vf2))) =
          some (Flow.ret false) ∧
      ¬ ∀ d, 1 ≤ d → d ≤ N * N → ∃ l, l < N * N ∧ M[N * N * l + k]? = some d) := by
  apply settle_sentinel
  have hsq : 0 < N * N := by omega
  have hlt : ∀ l, 0 + l * (N * N) < N * N * (N * N) ↔ l < N * N := by
    intro l
    rw [Nat.zero_add, Nat.mul_lt_mul_right hsq]
  have h := forRange_marks 0 (N * N * (N * N)) (N * N) (N * N + 1)
    (fun ri vf2 => mark M (ri + (0 + k * 1)) vf2)
    (fun l p => M[N * N * l + k]? = some p) hsq
    (by
      intro l hl
      have hl1 : l < N * N := (hlt l).mp hl
      have e : 0 + l * (N * N) + (0 + k * 1) = N * N * l + k := by ring
      obtain ⟨hj1, hlt⟩ := hM.cell_lt (block_lt hl1 hk)
      beta_reduce
      rw [e]
      exact mark_marks_cell M _ _ hj1 hlt)
  refine Marks_congr h ?_
  intro p
  constructor
  · rintro ⟨l, hl, hm⟩; exact ⟨l, (hlt l).mp hl, hm⟩
  · rintro ⟨l, hl, hm⟩; exact ⟨l, (hlt l).mpr hl, hm⟩

theorem mul_sq_lt_cube {N k : Nat} (hN : 0 < N) : k * (N * N) < N * N * N ↔ k < N := by
  have hsq : 0 < N * N := Nat.mul_pos hN hN
  have e : N * N * N = N * (N * N) := by ring
  rw [e, Nat.mul_lt_mul_right hsq]

/-- The subgrid test of `is_solved` for the subgrid of band `a` and stack `b`. -/
theorem sub_test (N : Nat) (M : Board) (hM : WellFormed N M) (a b : Nat)
    (ha : a < N) (hb : b < N) :
    (settle (sentinel (bitsetNew (N * N))
        (forRange (0 + a * (N * N * N) + b * N) (0 + a * (N * N * N) + b * N + N * N * N) (N * N)
          (fun ri vf3 => forRange 0 N 1 (fun ci vf4 => mark M (ri + ci) vf4) vf3))) =
          some (Flow.next (bitsetNew (N * N))) ∧
      ¬ ¬ ∀ d, 1 ≤ d → d ≤ N * N →
        ∃ k l, k < N ∧ l < N ∧ M[N * N * (N * a + k) + (N * b + l)]? = some d) ∨
    (settle (sentinel (bitsetNew (N * N))
        (forRange (0 + a * (N * N * N) + b * N) (0 + a * (N * N * N) + b * N + N * N * N) (N * N)
          (fun ri vf3 => forRange 0 N 1 (fun ci vf4 => mark M (ri + ci) vf4) vf3))) =
          some (Flow.ret false) ∧
      ¬ ∀ d, 1 ≤ d → d ≤ N * N →
        ∃ k l, k < N ∧ l < N ∧ M[N * N * (N * a + k) + (N * b + l)]? = some d) := by
  apply settle_sentinel
  have hN : 0 < N := by omega
  have hsq : 0 < N * N := Nat.mul_pos hN hN
  have hlt : ∀ k, 0 + a * (N * N * N) + b * N + k * (N * N)
      < 0 + a * (N * N * N) + b * N + N * N * N ↔ k < N := by
    intro k
    rw [Nat.add_lt_add_iff_left, mul_sq_lt_cube hN]
  have h := forRange_marks (0 + a * (N * N * N) + b * N)
    (0 + a * (N * N * N) + b * N + N * N * N) (N * N) (N * N + 1)
    (fun ri vf3 => forRange 0 N 1 (fun ci vf4 => mark M (ri + ci) vf4) vf3)
    (fun k p => ∃ l, 0 + l * 1 < N ∧ M[N * N * (N * a + k) + (N * b + l)]? = some p) hsq
    (by
      intro k hk
      have hk1 : k < N := (hlt k).mp hk
      exact forRange_marks 0 N 1 (N * N + 1)
        (fun ci vf4 => mark M (0 + a * (N * N * N) + b * N + k * (N * N) + ci) vf4)
        (fun l p => M[N * N * (N * a + k) + (N * b + l)]? = some p) Nat.one_pos
        (by
          intro l hl
          have hl1 : l < N := by omega
          have e : 0 + a * (N * N * N) + b * N + k * (N * N) + (0 + l * 1)
              = N * N * (N * a + k) + (N * b + l) := by ring
          obtain ⟨hj1, hlt⟩ := hM.cell_lt (block_lt (block_lt ha hk1) (block_lt hb hl1))
          beta_reduce
          rw [e]
          exact mark_marks_cell M _ _ hj1 hlt))
  refine Marks_congr h ?_
  intro p
  constructor
  · rintro ⟨k, hk, l, hl, hm⟩; exact ⟨k, l, (hlt k).mp hk, by omega, hm⟩
  · rintro ⟨k, l, hk, hl, hm⟩; exact ⟨k, (hlt k).mpr hk, l, by omega, hm⟩

theorem is_solved_scan (N : Nat) (M : Board) (hN : 0 < N) (hM : WellFormed N M) :
    (is_solved N M = some true ∧ SeenAt N M) ∨
    (is_solved N M = some false ∧ ¬ SeenAt N M) := by
  have hsq : 0 < N * N := Nat.mul_pos hN hN
  have hcb : 0 < N * N * N := Nat.mul_pos hsq hN
  have hlt : ∀ l, 0 + l * (N * N) < N * N * (N * N) ↔ l < N * N := by
    intro l
    rw [Nat.zero_add, Nat.mul_lt_mul_right hsq]
  have hlt3 : ∀ a, 0 + a * (N * N * N) < N * N * (N * N) ↔ a < N := by
    intro a
    have e : N * N * (N * N) = N * (N * N * N) := by ring
    rw [Nat.zero_add, e, Nat.mul_lt_mul_right hcb]
  have hltN : ∀ a b, 0 + a * (N * N * N) + b * N < 0 + a * (N * N * N) + N * N ↔ b < N := by
    intro a b
    rw [Nat.add_lt_add_iff_left, Nat.mul_lt_mul_right hN]
  have hrows := forRange_search 0 (N * N * (N * N)) (N * N)
    (fun ri vf => settle (sentinel vf
      (forRange 0 (N * N) 1 (fun ci vf1 => mark M (ri + ci) vf1))))
    (bitsetNew (N * N)) false
    (fun k => ¬ ∀ d, 1 ≤ d → d ≤ N * N → ∃ l, l < N * N ∧ M[N * N * k + l]? = some d) hsq
    (fun k hk => row_test N M hM k ((hlt k).mp hk))
  have hcols := forRange_search 0 (N * N) 1
    (fun ci vf1 => settle (sentinel vf1
      (forRange 0 (N * N * (N * N)) (N * N) (fun ri vf2 => mark M (ri + ci) vf2))))
    (bitsetNew (N * N)) false
    (fun k => ¬ ∀ d, 1 ≤ d → d ≤ N * N → ∃ l, l < N * N ∧ M[N * N * l + k]? = some d)
    Nat.one_pos
    (fun k hk => col_test N M hM k (by omega))
  have hsubs := forRange_search 0 (N * N * (N * N)) (N * N * N)
    (fun sri vf1 => forRange sri (sri + N * N) N (fun sci vf2 =>
      settle (sentinel vf2 (forRange sci (sci + N * N * N) (N * N) (fun ri vf3 =>
        forRange 0 N 1 (fun ci vf4 => mark M (ri + ci) vf4) vf3)))) vf1)
    (bitsetNew (N * N)) false
    (fun a => ∃ b, b < N ∧ ¬ ∀ d, 1 ≤ d → d ≤ N * N →
      ∃ k l, k < N ∧ l < N ∧ M[N * N * (N * a + k) + (N * b + l)]? = some d) hcb
    (by
      intro a ha
      have ha1 : a < N := (hlt3 a).mp ha
      have hin := forRange_search (0 + a * (N * N * N)) (0 + a * (N * N * N) + N * N) N
        (fun sci vf2 =>
          settle (sentinel vf2 (forRange sci (sci + N * N * N) (N * N) (fun ri vf3 =>
            forRange 0 N 1 (fun ci vf4 => mark M (ri + ci) vf4) vf3))))
        (bitsetNew (N * N)) false
        (fun b => ¬ ∀ d, 1 ≤ d → d ≤ N * N →
          ∃ k l, k < N ∧ l < N ∧ M[N * N * (N * a + k) + (N * b + l)]? = some d) hN
        (fun b hb => sub_test N M hM a b ha1 ((hltN a b).mp hb))
      rcases hin with ⟨h1, h2⟩ | ⟨h1, h2⟩
      · left
        refine ⟨h1, ?_⟩
        rintro ⟨b, hb, hbad⟩
        exact h2 b ((hltN a b).mpr hb) hbad
      · right
        refine ⟨h1, ?_⟩
        obtain ⟨b, hb, hbad⟩ := h2
        exact ⟨b, (hltN a b).mp hb, hbad⟩)
  unfold is_solved
  dsimp only
  rcases hrows with ⟨h1, p1⟩ | ⟨h1, p1⟩
  · rcases hcols with ⟨h2, p2⟩ | ⟨h2, p2⟩
    · rcases hsubs with ⟨h3, p3⟩ | ⟨h3, p3⟩
      · left
        rw [h1]; dsimp only; rw [h2]; dsimp only; rw [h3]
        refine ⟨rfl, ?_, ?_, ?_⟩
        · intro r hr
          exact not_not.mp (p1 r ((hlt r).mpr hr))
        · intro c hc
          exact not_not.mp (p2 c (by omega))
        · intro a b ha hb
          by_contra hcon
          exact p3 a ((hlt3 a).mpr ha) ⟨b, hb, hcon⟩
      · right
        rw [h1]; dsimp only; rw [h2]; dsimp only; rw [h3]
        refine ⟨rfl, ?_⟩
        rintro ⟨_, _, hs⟩
        obtain ⟨a, ha, b, hb, hbad⟩ := p3
        exact hbad (hs a b ((hlt3 a).mp ha) hb)
    · right
      rw [h1]; dsimp only; rw [h2]
      refine ⟨rfl, ?_⟩
      rintro ⟨_, hs, _⟩
      obtain ⟨c, hc, hbad⟩ := p2
      exact hbad (hs c (by omega))
  · right
    rw [h1]
    refine ⟨rfl, ?_⟩
    rintro ⟨hs, _, _⟩
    obtain ⟨r, hr, hbad⟩ := p1
    exact hbad (hs r ((hlt r).mp hr))

/-! ## Units and the pigeonhole argument -/

theorem seenAt_iff_allSeen (N : Nat) (M : Board) : SeenAt N M ↔ AllSeen N M := by
  constructor
  · rintro ⟨h1, h2, h3⟩
    refine ⟨?_, ?_, ?_⟩
    · intro r hr d hd1 hd2
      obtain ⟨l, hl, hm⟩ := h1 r hr d hd1 hd2
      have := (row_cells hr _).mpr ⟨l, hl, rfl⟩
      exact ⟨_, this.1, this.2, hm⟩
    · intro c hc d hd1 hd2
      obtain ⟨l, hl, hm⟩ := h2 c hc d hd1 hd2
      have := (col_cells hc _).mpr ⟨l, hl, rfl⟩
      exact ⟨_, this.1, this.2, hm⟩
    · intro a b ha hb d hd1 hd2
      obtain ⟨k, l, hk, hl, hm⟩ := h3 a b ha hb d hd1 hd2
      have := (sub_cells ha hb _).mpr ⟨k, l, hk, hl, rfl⟩
      exact ⟨_, this.1, this.2, hm⟩
  · rintro ⟨h1, h2, h3⟩
    refine ⟨?_, ?_, ?_⟩
    · intro r hr d hd1 hd2
      obtain ⟨j, hj, hu, hm⟩ := h1 r hr d hd1 hd2
      obtain ⟨l, hl, rfl⟩ := (row_cells hr j).mp ⟨hj, hu⟩
      exact ⟨l, hl, hm⟩
    · intro c hc d hd1 hd2
      obtain ⟨j, hj, hu, hm⟩ := h2 c hc d hd1 hd2
      obtain ⟨l, hl, rfl⟩ := (col_cells hc j).mp ⟨hj, hu⟩
      exact ⟨l, hl, hm⟩
    · intro a b ha hb d hd1 hd2
      obtain ⟨j, hj, hu, hm⟩ := h3 a b ha hb d hd1 hd2
      obtain ⟨k, l, hk, hl, rfl⟩ := (sub_cells ha hb j).mp ⟨hj, hu⟩
      exact ⟨k, l, hk, hl, hm⟩

/-- Pigeonhole: a unit of at most `sq` cells that shows every digit of `1..sq`
shows no digit twice and shows nothing else. -/
theorem pigeonhole (U : Finset Nat) (f : Nat → Option Nat) (sq : Nat) (hcard : U.card ≤ sq)
    (hsurj : ∀ d, 1 ≤ d → d ≤ sq → ∃ j, j ∈ U ∧ f j = some d) :
    (∀ j1, j1 ∈ U → ∀ j2, j2 ∈ U → f j1 = f j2 → j1 = j2) ∧
    (∀ j, j ∈ U → ∃ d, 1 ≤ d ∧ d ≤ sq ∧ f j = some d) := by
  classical
  have hsub : (Finset.Icc 1 sq).image some ⊆ U.image f := by
    intro y hy
    obtain ⟨d, hd, rfl⟩ := Finset.mem_image.mp hy
    obtain ⟨hd1, hd2⟩ := Finset.mem_Icc.mp hd
    obtain ⟨j, hj, hfj⟩ := hsurj d hd1 hd2
    exact Finset.mem_image.mpr ⟨j, hj, hfj⟩
  have hT : ((Finset.Icc 1 sq).image some).card = sq := by
    rw [Finset.card_image_of_injective _ (Option.some_injective Nat), Nat.card_Icc]
    omega
  have hle : (U.image f).card ≤ ((Finset.Icc 1 sq).image some).card := by
    rw [hT]
    exact le_trans Finset.card_image_le hcard
  have heq : (Finset.Icc 1 sq).image some = U.image f := Finset.eq_of_subset_of_card_le hsub hle
  have hcardU : (U.image f).card = U.card := by
    have h1 : (U.image f).card ≤ U.card := Finset.card_image_le
    have h2 : (U.image f).card = sq := by rw [← heq, hT]
    omega
  have hinj : Set.InjOn f U := Finset.card_image_iff.mp hcardU
  constructor
  · intro j1 h1 j2 h2 hf
    exact hinj (Finset.mem_coe.mpr h1) (Finset.mem_coe.mpr h2) hf
  · intro j hj
    have : f j ∈ (Finset.Icc 1 sq).image some := by
      rw [heq]; exact Finset.mem_image_of_mem f hj
    obtain ⟨d, hd, hfd⟩ := Finset.mem_image.mp this
    obtain ⟨hd1, hd2⟩ := Finset.mem_Icc.mp hd
    exact ⟨d, hd1, hd2, hfd.symm⟩

/-- The pigeonhole argument for a unit given by a membership predicate `u`
whose cells are enumerated by a finite set of at most `sq` elements. -/
theorem unit_pigeonhole (M : Board) (u : Nat → Prop) (U : Finset Nat) (sq : Nat)
    (hU : ∀ j, j ∈ U ↔ u j) (hcard : U.card ≤ sq)
    (hsurj : ∀ d, 1 ≤ d → d ≤ sq → ∃ j, u j ∧ M[j]? = some d) :
    (∀ d, 1 ≤ d → d ≤ sq → ∃! j, u j ∧ M[j]? = some d) ∧
    (∀ j, u j → ∃ d, 1 ≤ d ∧ d ≤ sq ∧ M[j]? = some d) := by
  obtain ⟨hinj, hran⟩ := pigeonhole U (fun j => M[j]?) sq hcard (by
    intro d hd1 hd2
    obtain ⟨j, hj, hm⟩ := hsurj d hd1 hd2
    exact ⟨j, (hU j).mpr hj, hm⟩)
  constructor
  · intro d hd1 hd2
    obtain ⟨j, hj, hm⟩ := hsurj d hd1 hd2
    refine ⟨j, ⟨hj, hm⟩, ?_⟩
    rintro j2 ⟨hj2, hm2⟩
    exact hinj j2 ((hU j2).mpr hj2) j ((hU j).mpr hj) (by simp only [hm, hm2])
  · intro j hj
    exact hran j ((hU j).mpr hj)

theorem row_unit (N r : Nat) (hr : r < N * N) :
    ∃ U : Finset Nat, (∀ j, j ∈ U ↔ (j < N * N * (N * N) ∧ inRow N r j)) ∧ U.card ≤ N * N := by
  classical
  refine ⟨(Finset.range (N * N)).image (fun k => N * N * r + k), ?_, ?_⟩
  · intro j
    rw [row_cells hr j, Finset.mem_image]
    constructor
    · rintro ⟨k, hk, rfl⟩; exact ⟨k, Finset.mem_range.mp hk, rfl⟩
    · rintro ⟨k, hk, rfl⟩; exact ⟨k, Finset.mem_range.mpr hk, rfl⟩
  · exact le_trans Finset.card_image_le (by rw [Finset.card_range])

theorem col_unit (N c : Nat) (hc : c < N * N) :
    ∃ U : Finset Nat, (∀ j, j ∈ U ↔ (j < N * N * (N * N) ∧ inCol N c j)) ∧ U.card ≤ N * N := by
  classical
  refine ⟨(Finset.range (N * N)).image (fun k => N * N * k + c), ?_, ?_⟩
  · intro j
    rw [col_cells hc j, Finset.mem_image]
    constructor
    · rintro ⟨k, hk, rfl⟩; exact ⟨k, Finset.mem_range.mp hk, rfl⟩
    · rintro ⟨k, hk, rfl⟩; exact ⟨k, Finset.mem_range.mpr hk, rfl⟩
  · exact le_trans Finset.card_image_le (by rw [Finset.card_range])

theorem sub_unit (N a b : Nat) (ha : a < N) (hb : b < N) :
    ∃ U : Finset Nat, (∀ j, j ∈ U ↔ (j < N * N * (N * N) ∧ inSub N a b j)) ∧
      U.card ≤ N * N := by
  classical
  refine ⟨(Finset.range N ×ˢ Finset.range N).image
    (fun p => N * N * (N * a + p.1) + (N * b + p.2)), ?_, ?_⟩
  · intro j
    rw [sub_cells ha hb j, Finset.mem_image]
    constructor
    · rintro ⟨⟨k, l⟩, hkl, rfl⟩
      obtain ⟨hk, hl⟩ := Finset.mem_product.mp hkl
      exact ⟨k, l, Finset.mem_range.mp hk, Finset.mem_range.mp hl, rfl⟩
    · rintro ⟨k, l, hk, hl, rfl⟩
      exact ⟨(k, l), Finset.mem_product.mpr ⟨Finset.mem_range.mpr hk, Finset.mem_range.mpr hl⟩,
        rfl⟩
  · refine le_trans Finset.card_image_le ?_
    rw [Finset.card_product, Finset.card_range]

/-- The marker test is the permutation test: showing every digit in every unit
is the same as holding every digit exactly once in every unit. -/
theorem allSeen_iff_solved (N : Nat) (M : Board) : AllSeen N M ↔ Solved N M := by
  constructor
  · rintro ⟨h1, h2, h3⟩
    refine ⟨?_, ?_, ?_⟩
    · intro r hr d hd1 hd2
      obtain ⟨U, hU, hcard⟩ := row_unit N r hr
      have := (unit_pigeonhole M (fun j => j < N * N * (N * N) ∧ inRow N r j) U (N * N) hU hcard
        (fun d hd1 hd2 => by
          obtain ⟨j, hj, hu, hm⟩ := h1 r hr d hd1 hd2
          exact ⟨j, ⟨hj, hu⟩, hm⟩)).1 d hd1 hd2
      simpa only [and_assoc] using this
    · intro c hc d hd1 hd2
      obtain ⟨U, hU, hcard⟩ := col_unit N c hc
      have := (unit_pigeonhole M (fun j => j < N * N * (N * N) ∧ inCol N c j) U (N * N) hU hcard
        (fun d hd1 hd2 => by
          obtain ⟨j, hj, hu, hm⟩ := h2 c hc d hd1 hd2
          exact ⟨j, ⟨hj, hu⟩, hm⟩)).1 d hd1 hd2
      simpa only [and_assoc] using this
    · intro a b ha hb d hd1 hd2
      obtain ⟨U, hU, hcard⟩ := sub_unit N a b ha hb
      have := (unit_pigeonhole M (fun j => j < N * N * (N * N) ∧ inSub N a b j) U (N * N) hU
        hcard (fun d hd1 hd2 => by
          obtain ⟨j, hj, hu, hm⟩ := h3 a b ha hb d hd1 hd2
          exact ⟨j, ⟨hj, hu⟩, hm⟩)).1 d hd1 hd2
      simpa only [and_assoc] using this
  · rintro ⟨h1, h2, h3⟩
    exact ⟨fun r hr d hd1 hd2 => (h1 r hr d hd1 hd2).exists,
      fun c hc d hd1 hd2 => (h2 c hc d hd1 hd2).exists,
      fun a b ha hb d hd1 hd2 => (h3 a b ha hb d hd1 hd2).exists⟩

/-- In a solved board every cell holds a digit of `1..N^2`. -/
theorem Solved.cell_range {N : Nat} {M : Board} (h : Solved N M) {j : Nat}
    (hj : j < N * N * (N * N)) : ∃ d, 1 ≤ d ∧ d ≤ N * N ∧ M[j]? = some d := by
  have hr : j / (N * N) < N * N := Nat.div_lt_of_lt_mul hj
  obtain ⟨U, hU, hcard⟩ := row_unit N (j / (N * N)) hr
  exact (unit_pigeonhole M (fun j1 => j1 < N * N * (N * N) ∧ inRow N (j / (N * N)) j1) U (N * N)
    hU hcard (fun d hd1 hd2 => by
      obtain ⟨j1, ⟨hj1, hu, hm⟩, _⟩ := h.1 (j / (N * N)) hr d hd1 hd2
      exact ⟨j1, ⟨hj1, hu⟩, hm⟩)).2 j ⟨hj, rfl⟩

/-! ## Board updates -/

theorem set_same {M : Board} {i x : Nat} (h : M[i]? = some x) : M.set i x = M := by
  apply List.ext_getElem?
  intro n
  rw [List.getElem?_set]
  by_cases hn : i = n
  · subst hn
    obtain ⟨hlt, _⟩ := List.getElem?_eq_some.mp h
    simp [hlt, h]
  · simp [hn]

theorem lt_length_of_get {M : Board} {i x : Nat} (h : M[i]? = some x) : i < M.length :=
  (List.getElem?_eq_some.mp h).1

/-- One iteration of the loop of `solvable`, as written in the source. -/
theorem solvable_body (N : Nat) (M : Board) (i : Nat) (hlen : M.length = N * N * (N * N))
    (hi : i < N * N * (N * N)) :
    ((match M[i]? with
      | none => none
      | some temp =>
        if temp ≠ 0 then
          match valid_move N (M.set i 0) i temp with
          | none => none
          | some valid =>
            if (!valid) = true then some (Flow.ret (false, (M.set i 0).set i temp))
            else some (Flow.next ((M.set i 0).set i temp))
        else some (Flow.next M)) = some (Flow.next M) ∧ ¬ Conflict N M i) ∨
    ((match M[i]? with
      | none => none
      | some temp =>
        if temp ≠ 0 then
          match valid_move N (M.set i 0) i temp with
          | none => none
          | some valid =>
            if (!valid) = true then some (Flow.ret (false, (M.set i 0).set i temp))
            else some (Flow.next ((M.set i 0).set i temp))
        else some (Flow.next M)) = some (Flow.ret (false, M)) ∧ Conflict N M i) := by
  have hil : i < M.length := by rw [hlen]; exact hi
  have hx : M[i]? = some M[i] := List.getElem?_eq_getElem hil
  have hback : (M.set i 0).set i M[i] = M := by
    rw [List.set_set]; exact set_same hx
  rw [hx]
  dsimp only
  by_cases h0 : M[i] = 0
  · left
    refine ⟨by simp [h0], ?_⟩
    rintro ⟨x, j, hx0, hxi, -⟩
    rw [hx] at hxi
    exact hx0 ((Option.some.inj hxi).symm.trans h0)
  · rw [if_pos h0, hback]
    rcases valid_move_spec N (M.set i 0) i M[i] (by rw [List.length_set]; exact hlen) hi with
      ⟨hv, hp⟩ | ⟨hv, j, hj, hpeer, hm⟩
    · left
      rw [hv]
      refine ⟨by simp, ?_⟩
      rintro ⟨x, j, hx0, hxi, hj, hji, hpeer, hm⟩
      rw [hx] at hxi
      have hxe : M[i] = x := Option.some.inj hxi
      apply hp j hj hpeer
      rw [List.getElem?_set_ne (Ne.symm hji), hm, hxe]
    · right
      rw [hv]
      refine ⟨by simp, ?_⟩
      have hji : j ≠ i := by
        rintro rfl
        rw [List.getElem?_set_self hil] at hm
        exact h0 (Option.some.inj hm).symm
      rw [List.getElem?_set_ne (Ne.symm hji)] at hm
      exact ⟨M[i], j, h0, hx, hj, hji, hpeer, hm⟩

/-- The verdict of `solvable` and the board it leaves behind. -/
theorem solvable_spec (N : Nat) (M : Board) (hlen : M.length = N * N * (N * N)) :
    (solvable N M = some (true, M) ∧ ∀ i, i < N * N * (N * N) → ¬ Conflict N M i) ∨
    (solvable N M = some (false, M) ∧ ∃ i, i < N * N * (N * N) ∧ Conflict N M i) := by
  have h := forRange_search 0 (N * N * (N * N)) 1
    (fun i (M : Board) =>
      match M[i]? with
      | none => none
      | some temp =>
        if temp ≠ 0 then
          let M1 := M.set i 0
          match valid_move N M1 i temp with
          | none => none
          | some valid =>
            let M2 := M1.set i temp
            if !valid then some (Flow.ret (false, M2)) else some (Flow.next M2)
        else some (Flow.next M))
    M (false, M) (fun i => Conflict N M i) Nat.one_pos
    (by
      intro k hk
      have e : 0 + k * 1 = k := by omega
      rw [e] at hk ⊢
      exact solvable_body N M k hlen hk)
  unfold solvable
  dsimp only
  rcases h with ⟨h1, p1⟩ | ⟨h1, p1⟩
  · left
    rw [h1]
    exact ⟨rfl, fun i hi => p1 i (by omega)⟩
  · right
    rw [h1]
    obtain ⟨i, hi, hc⟩ := p1
    exact ⟨rfl, i, by omega, hc⟩

/-! ## Solutions -/

theorem peer_self (N i : Nat) : peer N i i := Or.inl rfl

/-- In a solved board two cells of one unit never hold the same digit. -/
theorem Solved.no_dup {N : Nat} {S : Board} (h : Solved N S) {i j d : Nat}
    (hi : i < N * N * (N * N)) (hj : j < N * N * (N * N)) (hp : peer N i j)
    (hd1 : 1 ≤ d) (hd2 : d ≤ N * N) (hSi : S[i]? = some d) (hSj : S[j]? = some d) : j = i := by
  have hsq : 0 < N * N := by omega
  have hr : i / (N * N) < N * N := Nat.div_lt_of_lt_mul hi
  have hc : i % (N * N) < N * N := Nat.mod_lt _ hsq
  rcases hp with hrow | hcol | hsub
  · exact (h.1 _ hr d hd1 hd2).unique ⟨hj, hrow, hSj⟩ ⟨hi, rfl, hSi⟩
  · exact (h.2.1 _ hc d hd1 hd2).unique ⟨hj, hcol, hSj⟩ ⟨hi, rfl, hSi⟩
  · exact (h.2.2 _ _ (div_lt_of_lt_sq hr) (div_lt_of_lt_sq hc) d hd1 hd2).unique
      ⟨hj, hsub, hSj⟩ ⟨hi, ⟨rfl, rfl⟩, hSi⟩

theorem Agrees.refl (M : Board) : Agrees M M := fun _ _ h _ => h

/-- A complete board has only itself as a completion. -/
theorem eq_of_agrees_full {n : Nat} {M S : Board} (hM : M.length = n) (hS : S.length = n)
    (hfull : ∀ j, j < n → M[j]? ≠ some 0) (h : Agrees M S) : S = M := by
  apply List.ext_getElem?
  intro j
  by_cases hj : j < n
  · have hjM : j < M.length := by omega
    have hx : M[j]? = some M[j] := List.getElem?_eq_getElem hjM
    have hne : M[j] ≠ 0 := by
      intro h0
      exact hfull j hj (by rw [hx, h0])
    rw [h j M[j] hx hne, hx]
  · rw [List.getElem?_eq_none (by omega), List.getElem?_eq_none (by omega)]

theorem WellFormed.set {N : Nat} {M : Board} (h : WellFormed N M) (i t : Nat)
    (ht : t ≤ N * N) : WellFormed N (M.set i t) := by
  refine ⟨by rw [List.length_set]; exact h.length_eq, ?_⟩
  intro j x hx
  rw [List.getElem?_set] at hx
  by_cases hij : i = j
  · simp only [hij, if_true] at hx
    split at hx
    · rw [← Option.some.inj hx]; exact ht
    · exact absurd hx (by simp)
  · simp only [hij, if_false] at hx
    exact h.cell_le j x hx

/-- Filling an empty cell `i` of `M` with `t`: the solutions of the new puzzle
are the solutions of `M` that hold `t` at `i`. -/
theorem solution_set_iff {N : Nat} {M S : Board} {i t : Nat} (hi : i < M.length)
    (h0 : M[i]? = some 0) (ht : t ≠ 0) :
    Solution N (M.set i t) S ↔ (Solution N M S ∧ S[i]? = some t) := by
  constructor
  · rintro ⟨hlen, hag, hsol⟩
    refine ⟨⟨hlen, ?_, hsol⟩, hag i t (List.getElem?_set_self hi) ht⟩
    intro j x hx hx0
    have hji : i ≠ j := by
      rintro rfl
      rw [h0] at hx
      exact hx0 (Option.some.inj hx).symm
    exact hag j x (by rw [List.getElem?_set_ne hji]; exact hx) hx0
  · rintro ⟨⟨hlen, hag, hsol⟩, hSi⟩
    refine ⟨hlen, ?_, hsol⟩
    intro j x hx hx0
    by_cases hji : i = j
    · subst hji
      rw [List.getElem?_set_self hi] at hx
      rw [← Option.some.inj hx]; exact hSi
    · rw [List.getElem?_set_ne hji] at hx
      exact hag j x hx hx0

theorem attempt_zero (N i : Nat) (M : Board) : attempt N 0 i M = none := rfl

theorem attempt_succ (N fuel i : Nat) (M : Board) :
    attempt N (fuel + 1) i M =
      if i = N * N * (N * N) then
        match is_solved N M with
        | none => none
        | some b => some (b, M)
      else
        match M[i]? with
        | none => none
        | some x =>
          if x ≠ 0 then attempt N fuel (i + 1) M
          else
            match forRange 1 (N * N + 1) 1 (candidate N i (attempt N fuel (i + 1))) M with
            | none => none
            | some (Flow.ret r) => some r
            | some (Flow.next M1) => some (false, M1.set i 0) := rfl

/-- Correctness of the backtracking search from cell `i`, when every cell
before `i` is filled: either it succeeds, leaving the least solution of `M`, or
it fails, leaving `M` as it was, and `M` has no solution. -/
theorem attempt_spec (N : Nat) (hN : 0 < N) :
    ∀ fuel i (M : Board), WellFormed N M → i ≤ N * N * (N * N) →
      N * N * (N * N) + 1 - i ≤ fuel → (∀ j, j < i → M[j]? ≠ some 0) →
      (∃ M1, attempt N fuel i M = some (true, M1) ∧ Found N M M1) ∨
      (attempt N fuel i M = some (false, M) ∧ ∀ S, ¬ Solution N M S) := by
  have hsq : 0 < N * N := Nat.mul_pos hN hN
  intro fuel
  induction fuel with
  | zero =>
    intro i M _ hi hf _
    omega
  | succ fuel ih =>
    intro i M hM hi hf hfull
    rw [attempt_succ]
    by_cases hts : i = N * N * (N * N)
    · -- past the last cell: the board is complete
      rw [if_pos hts]
      have honly : ∀ S, Solution N M S → S = M := by
        rintro S ⟨hlen, hag, -⟩
        exact eq_of_agrees_full hM.length_eq hlen (fun j hj => hfull j (by omega)) hag
      rcases is_solved_scan N M hN hM with ⟨hs, hseen⟩ | ⟨hs, hseen⟩
      · left
        refine ⟨M, by rw [hs], hs, hM, Agrees.refl M, ?_⟩
        intro S hS
        exact Or.inl (honly S hS).symm
      · right
        refine ⟨by rw [hs], ?_⟩
        intro S hS
        have := honly S hS
        subst this
        exact hseen ((seenAt_iff_allSeen N S).mpr ((allSeen_iff_solved N S).mpr hS.2.2))
    · rw [if_neg hts]
      have hi1 : i < N * N * (N * N) := by omega
      have hil : i < M.length := by rw [hM.length_eq]; exact hi1
      have hx : M[i]? = some M[i] := List.getElem?_eq_getElem hil
      rw [hx]
      dsimp only
      by_cases h0 : M[i] = 0
      · -- an empty cell: the candidate loop
        rw [if_neg (by simpa using h0)]
        have hx0 : M[i]? = some 0 := by rw [hx, h0]
        have key := forLoop_total (N * N + 1) 1 (candidate N i (attempt N fuel (i + 1)))
          (fun t Mt => 1 ≤ t ∧ (∃ y, y < t ∧ Mt = M.set i y) ∧
            ∀ S, Solution N M S → ∀ y, S[i]? = some y → t ≤ y)
          (fun r => ∃ M1, r = (true, M1) ∧ Found N M M1) Nat.one_pos
          (by
            rintro t Mt ht ⟨ht1, ⟨y, hy, rfl⟩, hmin⟩
            have hts2 : t ≤ N * N := by omega
            have hset : (M.set i y).set i t = M.set i t := List.set_set _ _ _ _
            have hlenS : (M.set i y).length = N * N * (N * N) := by
              rw [List.length_set]; exact hM.length_eq
            unfold candidate
            rcases valid_move_spec N (M.set i y) i t hlenS hi1 with
              ⟨hv, _⟩ | ⟨hv, j, hj, hpeer, hm⟩
            · -- the candidate is placed and the search goes on
              rw [hv, hset]
              dsimp only
              have hWF : WellFormed N (M.set i t) := hM.set i t hts2
              have hfull1 : ∀ j, j < i + 1 → (M.set i t)[j]? ≠ some 0 := by
                intro j hj
                by_cases hji : i = j
                · subst hji
                  rw [List.getElem?_set_self hil]
                  intro hc
                  have := Option.some.inj hc
                  omega
                · rw [List.getElem?_set_ne hji]
                  exact hfull j (by omega)
              rcases ih (i + 1) (M.set i t) hWF (by omega) (by omega) hfull1 with
                ⟨M1, hrec, hsol, hWF1, hag1, hmin1⟩ | ⟨hrec, hnone⟩
              · refine ⟨Flow.ret (true, M1), by rw [hrec], M1, rfl, hsol, hWF1, ?_, ?_⟩
                · intro j x hjx hxne
                  have hji : i ≠ j := by
                    rintro rfl
                    rw [hx0] at hjx
                    exact hxne (Option.some.inj hjx).symm
                  exact hag1 j x (by rw [List.getElem?_set_ne hji]; exact hjx) hxne
                · intro S hS
                  have hSlen : i < S.length := by rw [hS.1]; exact hi1
                  have hSi : S[i]? = some S[i] := List.getElem?_eq_getElem hSlen
                  have hle := hmin S hS S[i] hSi
                  rcases Nat.eq_or_lt_of_le hle with heq | hlt
                  · apply hmin1 S
                    exact (solution_set_iff hil hx0 (by omega)).mpr ⟨hS, by rw [hSi, ← heq]⟩
                  · right
                    refine ⟨i, ?_, t, S[i], ?_, hSi, hlt⟩
                    · intro j hj
                      have hjl : j < M.length := by omega
                      have hjx : M[j]? = some M[j] := List.getElem?_eq_getElem hjl
                      have hne : M[j] ≠ 0 := by
                        intro hz
                        exact hfull j hj (by rw [hjx, hz])
                      have hji : i ≠ j := by omega
                      rw [hag1 j M[j] (by rw [List.getElem?_set_ne hji]; exact hjx) hne,
                        hS.2.1 j M[j] hjx hne]
                    · exact hag1 i t (List.getElem?_set_self hil) (by omega)
              · refine ⟨Flow.next (M.set i t), by rw [hrec], by omega, ⟨t, by omega, rfl⟩, ?_⟩
                intro S hS y1 hy1
                have hle := hmin S hS y1 hy1
                rcases Nat.eq_or_lt_of_le hle with heq | hlt
                · exfalso
                  exact hnone S ((solution_set_iff hil hx0 (by omega)).mpr
                    ⟨hS, by rw [hy1, ← heq]⟩)
                · exact hlt
            · -- the candidate is rejected: some other cell of a unit of `i` holds it
              rw [hv]
              refine ⟨Flow.next (M.set i y), rfl, by omega, ⟨y, by omega, rfl⟩, ?_⟩
              have hji : i ≠ j := by
                rintro rfl
                rw [List.getElem?_set_self hil] at hm
                have := Option.some.inj hm
                omega
              rw [List.getElem?_set_ne hji] at hm
              intro S hS y1 hy1
              have hle := hmin S hS y1 hy1
              rcases Nat.eq_or_lt_of_le hle with heq | hlt
              · exfalso
                subst heq
                have hSj : S[j]? = some t := hS.2.1 j t hm (by omega)
                exact hji (hS.2.2.no_dup hi1 hj hpeer ht1 hts2 hy1 hSj).symm
              · exact hlt)
          (N * N + 1 - 1) 1 M (le_refl _)
          ⟨le_refl _, ⟨0, Nat.one_pos, (set_same hx0).symm⟩, by
            intro S hS y hy
            obtain ⟨d, hd1, _, hd⟩ := hS.2.2.cell_range hi1
            rw [hy] at hd
            rw [Option.some.inj hd]; exact hd1⟩
        obtain ⟨r, hr, hsat⟩ := key
        unfold forRange
        rw [hr]
        cases r with
        | ret x =>
          obtain ⟨M1, rfl, hfound⟩ := hsat
          exact Or.inl ⟨M1, rfl, hfound⟩
        | next M1 =>
          obtain ⟨t, ht, _, ⟨y, _, rfl⟩, hmin⟩ := hsat
          right
          dsimp only
          rw [List.set_set, set_same hx0]
          refine ⟨rfl, ?_⟩
          intro S hS
          obtain ⟨d, _, hd2, hd⟩ := hS.2.2.cell_range hi1
          have := hmin S hS d hd
          omega
      · -- a filled cell: go on with the next one
        rw [if_pos (by simpa using h0)]
        exact ih (i + 1) M hM (by omega) (by omega) (by
          intro j hj
          rcases Nat.lt_succ_iff_lt_or_eq.mp hj with h | h
          · exact hfull j h
          · subst h
            rw [hx]
            intro hc
            exact h0 (Option.some.inj hc))

/-- Frame property of the search, for any board whatever: a result leaves
the length and the nonzero cells of `M` as they were, and a failed search
leaves the whole board as it was. -/
theorem attempt_frame (N : Nat) :
    ∀ fuel i (M : Board) (b : Bool) (M1 : Board), attempt N fuel i M = some (b, M1) →
      M1.length = M.length ∧ Agrees M M1 ∧ (b = false → M1 = M) := by
  intro fuel
  induction fuel with
  | zero =>
    intro i M b M1 h
    rw [attempt_zero] at h
    exact absurd h (by simp)
  | succ fuel ih =>
    intro i M b M1 h
    rw [attempt_succ] at h
    by_cases hts : i = N * N * (N * N)
    · rw [if_pos hts] at h
      cases hs : is_solved N M with
      | none => rw [hs] at h; exact absurd h (by simp)
      | some b1 =>
        rw [hs] at h
        have := Option.some.inj h
        have hM1 : M1 = M := (congrArg Prod.snd this).symm
        subst hM1
        exact ⟨rfl, Agrees.refl _, fun _ => rfl⟩
    · rw [if_neg hts] at h
      cases hx : M[i]? with
      | none => rw [hx] at h; exact absurd h (by simp)
      | some x =>
        rw [hx] at h
        dsimp only at h
        by_cases h0 : x = 0
        · subst h0
          rw [if_neg (by simp)] at h
          have hil : i < M.length := lt_length_of_get hx
          cases hloop : forRange 1 (N * N + 1) 1 (candidate N i (attempt N fuel (i + 1))) M with
          | none => rw [hloop] at h; exact absurd h (by simp)
          | some r =>
            rw [hloop] at h
            have hsat := forLoop_sound (N * N + 1) 1 (candidate N i (attempt N fuel (i + 1)))
              (fun _ Mt => ∃ y, Mt = M.set i y)
              (fun r => r.1 = true ∧ r.2.length = M.length ∧ Agrees M r.2)
              (by
                rintro t Mt r1 _ ⟨y, rfl⟩ hc
                unfold candidate at hc
                cases hv : valid_move N (M.set i y) i t with
                | none => rw [hv] at hc; exact absurd hc (by simp)
                | some v =>
                  rw [hv] at hc
                  cases v with
                  | false =>
                    dsimp only at hc
                    rw [← Option.some.inj hc]
                    exact ⟨y, rfl⟩
                  | true =>
                    dsimp only at hc
                    rw [List.set_set] at hc
                    cases hrec : attempt N fuel (i + 1) (M.set i t) with
                    | none => rw [hrec] at hc; exact absurd hc (by simp)
                    | some p =>
                      obtain ⟨b2, M2⟩ := p
                      obtain ⟨hlen2, hag2, hrest2⟩ := ih (i + 1) (M.set i t) b2 M2 hrec
                      rw [hrec] at hc
                      cases b2 with
                      | false =>
                        dsimp only at hc
                        rw [← Option.some.inj hc]
                        exact ⟨t, hrest2 rfl⟩
                      | true =>
                        dsimp only at hc
                        rw [← Option.some.inj hc]
                        refine ⟨rfl, by rw [hlen2, List.length_set], ?_⟩
                        intro j x hjx hxne
                        have hji : i ≠ j := by
                          rintro rfl
                          rw [hx] at hjx
                          exact hxne (Option.some.inj hjx).symm
                        exact hag2 j x (by rw [List.getElem?_set_ne hji]; exact hjx) hxne)
              (N * N + 1 - 1) 1 M r ⟨0, (set_same hx).symm⟩ hloop
            cases r with
            | ret p =>
              dsimp only at h
              have hp := Option.some.inj h
              subst hp
              obtain ⟨hb, hlen, hag⟩ := hsat
              refine ⟨hlen, hag, ?_⟩
              intro hbf
              rw [hbf] at hb
              exact absurd hb (by simp)
            | next M2 =>
              dsimp only at h
              obtain ⟨_, _, y, rfl⟩ := hsat
              rw [List.set_set, set_same hx] at h
              have hp := Option.some.inj h
              have hM1 : M1 = M := (congrArg Prod.snd hp).symm
              subst hM1
              exact ⟨rfl, Agrees.refl _, fun _ => rfl⟩
        · rw [if_pos h0] at h
          exact ih (i + 1) M b M1 h

/-! ## The claims -/

theorem wellFormed_of {N : Nat} {M : Board} (hlen : M.length = N ^ 4)
    (hrange : ∀ x ∈ M, x ≤ N ^ 2) : WellFormed N M := by
  refine ⟨by rw [hlen, pow4], ?_⟩
  intro j x hx
  obtain ⟨hj, rfl⟩ := List.getElem?_eq_some.mp hx
  have := hrange M[j] (List.getElem_mem hj)
  rwa [pow_two] at this

theorem is_solved_iff (N : Nat) (M : Board) (hN : 0 < N) (hM : WellFormed N M) :
    is_solved N M = some true ↔ Solved N M := by
  rcases is_solved_scan N M hN hM with ⟨hs, hseen⟩ | ⟨hs, hseen⟩
  · exact ⟨fun _ => (allSeen_iff_solved N M).mp ((seenAt_iff_allSeen N M).mp hseen),
      fun _ => hs⟩
  · constructor
    · intro h
      rw [hs] at h
      exact absurd h (by simp)
    · intro h
      exact absurd ((seenAt_iff_allSeen N M).mpr ((allSeen_iff_solved N M).mpr h)) hseen

/-- The search from cell 0, on a well-formed board. -/
theorem solve_spec (N : Nat) (M : Board) (hN : 0 < N) (hM : WellFormed N M) :
    (∃ M1, solve N M = some (true, M1) ∧ Found N M M1) ∨
    (solve N M = some (false, M) ∧ ∀ S, ¬ Solution N M S) :=
  attempt_spec N hN (N * N * (N * N) + 1) 0 M hM (Nat.zero_le _) (le_refl _)
    (fun j hj => absurd hj (Nat.not_lt_zero j))

theorem Found.solution {N : Nat} {M M1 : Board} (hN : 0 < N) (h : Found N M M1) :
    Solution N M M1 :=
  ⟨h.2.1.length_eq, h.2.2.1, (is_solved_iff N M1 hN h.2.1).mp h.1⟩

/-- C1: for `N ≥ 1` and a board of `N^4` cells with values in `[0, N^2]`,
`solve` returns a verdict, and the verdict is true if and only if there is a
complete board that agrees with the input on the nonzero input cells and in
which every row, column and subgrid is a permutation of `1..N^2`. -/
theorem solve_true_iff_solution_exists (N : Nat) (M : Board) (hN : 1 ≤ N)
    (hlen : M.length = N ^ 4) (hrange : ∀ x ∈ M, x ≤ N ^ 2) :
    (∃ b M1, solve N M = some (b, M1)) ∧
    ((∃ M1, solve N M = some (true, M1)) ↔ ∃ S, Solution N M S) := by
  rcases solve_spec N M hN (wellFormed_of hlen hrange) with ⟨M1, hs, hf⟩ | ⟨hs, hno⟩
  · exact ⟨⟨true, M1, hs⟩, fun _ => ⟨M1, hf.solution hN⟩, fun _ => ⟨M1, hs⟩⟩
  · refine ⟨⟨false, M, hs⟩, ?_, ?_⟩
    · rintro ⟨M1, h1⟩
      rw [hs] at h1
      exact absurd h1 (by simp)
    · rintro ⟨S, hS⟩
      exact absurd hS (hno S)

/-- C2: for `N ≥ 1` and a board of `N^4` cells with values in `[0, N^2]`,
`solve` returns a verdict, and when the verdict is true `is_solved` returns
true on the board that `solve` leaves behind. -/
theorem solve_true_is_solved (N : Nat) (M : Board) (hN : 1 ≤ N)
    (hlen : M.length = N ^ 4) (hrange : ∀ x ∈ M, x ≤ N ^ 2) :
    (∃ b M1, solve N M = some (b, M1)) ∧
    ∀ M1, solve N M = some (true, M1) → is_solved N M1 = some true := by
  rcases solve_spec N M hN (wellFormed_of hlen hrange) with ⟨M1, hs, hf⟩ | ⟨hs, _⟩
  · refine ⟨⟨true, M1, hs⟩, ?_⟩
    intro M2 h2
    rw [hs] at h2
    have := congrArg Prod.snd (Option.some.inj h2)
    dsimp only at this
    rw [← this]
    exact hf.1
  · refine ⟨⟨false, M, hs⟩, ?_⟩
    intro M2 h2
    rw [hs] at h2
    exact absurd h2 (by simp)

/-- C3: for `N ≥ 1` and a board of `N^4` cells with values in `[0, N^2]`,
`solve` returns a verdict, and when the verdict is false the board after the
call is the board before the call, cell for cell; the same holds for every
nested call of `attempt`, at any cell and on any board. -/
theorem solve_false_restores (N : Nat) (M : Board) (hN : 1 ≤ N)
    (hlen : M.length = N ^ 4) (hrange : ∀ x ∈ M, x ≤ N ^ 2) :
    (∃ b M1, solve N M = some (b, M1)) ∧
    (∀ M1, solve N M = some (false, M1) → M1 = M) ∧
    (∀ fuel i (B B1 : Board), attempt N fuel i B = some (false, B1) → B1 = B) := by
  refine ⟨?_, ?_, ?_⟩
  · rcases solve_spec N M hN (wellFormed_of hlen hrange) with ⟨M1, hs, _⟩ | ⟨hs, _⟩
    · exact ⟨true, M1, hs⟩
    · exact ⟨false, M, hs⟩
  · intro M1 h
    exact (attempt_frame N _ 0 M false M1 h).2.2 rfl
  · intro fuel i B B1 h
    exact (attempt_frame N fuel i B false B1 h).2.2 rfl

/-- C4: for a board of `N^4` cells (of any values), whatever `solve` returns,
the board it leaves has `N^4` cells and every cell that was nonzero on entry
holds the same value: `solve` writes only to cells that were zero on entry.
When moreover `N ≥ 1` and the values are in `[0, N^2]`, `solve` does return. -/
theorem solve_keeps_given_cells (N : Nat) (M : Board) (hlen : M.length = N ^ 4) :
    (∀ b M1, solve N M = some (b, M1) →
      M1.length = N ^ 4 ∧ ∀ (j x : Nat), M[j]? = some x → x ≠ 0 → M1[j]? = some x) ∧
    (1 ≤ N → (∀ x ∈ M, x ≤ N ^ 2) → ∃ b M1, solve N M = some (b, M1)) := by
  constructor
  · intro b M1 h
    obtain ⟨h1, h2, _⟩ := attempt_frame N _ 0 M b M1 h
    exact ⟨by rw [h1, hlen], h2⟩
  · intro hN hrange
    rcases solve_spec N M hN (wellFormed_of hlen hrange) with ⟨M1, hs, _⟩ | ⟨hs, _⟩
    · exact ⟨true, M1, hs⟩
    · exact ⟨false, M, hs⟩

/-- C5: for `N ≥ 1` and a board of `N^4` cells with values in `[0, N^2]`, when
`solve` returns true the board it leaves is a solved board that agrees with the
input on its nonzero cells, and it is the lexicographically smallest such
board, cells compared in ascending flat index order. -/
theorem solve_true_least (N : Nat) (M : Board) (hN : 1 ≤ N)
    (hlen : M.length = N ^ 4) (hrange : ∀ x ∈ M, x ≤ N ^ 2) :
    ∀ M1, solve N M = some (true, M1) →
      Solution N M M1 ∧ ∀ S, Solution N M S → LexLE M1 S := by
  intro M1 h
  rcases solve_spec N M hN (wellFormed_of hlen hrange) with ⟨M2, hs, hf⟩ | ⟨hs, _⟩
  · rw [hs] at h
    have := congrArg Prod.snd (Option.some.inj h)
    dsimp only at this
    subst this
    exact ⟨hf.solution hN, hf.2.2.2⟩
  · rw [hs] at h
    exact absurd h (by simp)

/-- C6: for a board of `N^4` cells, an index `i < N^4` (so `N ≥ 1`) and any
value `v`, `valid_move` returns a verdict; the verdict is true if and only if
no cell of the row, the column or the subgrid of `i` holds `v`, and it is false
as soon as one cell of the row, the column or the subgrid of `i` holds `v`
(the premises `1 ≤ v ≤ N^2` and `board[i] ≠ v` of the claim are not needed). -/
theorem valid_move_iff_no_peer_holds (N : Nat) (M : Board) (i v : Nat)
    (hlen : M.length = N ^ 4) (hi : i < N ^ 4) :
    (valid_move N M i v = some true ∨ valid_move N M i v = some false) ∧
    (valid_move N M i v = some true ↔
      ∀ j, j < N ^ 4 → peer N i j → M[j]? ≠ some v) ∧
    (∀ j, j < N ^ 4 →
      (inRow N (i / (N * N)) j ∨ inCol N (i % (N * N)) j ∨
        inSub N (i / (N * N) / N) (i % (N * N) / N) j) →
      M[j]? = some v → valid_move N M i v = some false) := by
  rw [pow4] at hlen hi ⊢
  rcases valid_move_spec N M i v hlen hi with ⟨hv, hp⟩ | ⟨hv, j, hj, hpeer, hm⟩
  · refine ⟨Or.inl hv, ⟨fun _ => hp, fun _ => hv⟩, ?_⟩
    intro j hj hpeer hm
    exact absurd hm (hp j hj hpeer)
  · refine ⟨Or.inr hv, ⟨?_, ?_⟩, fun _ _ _ _ => hv⟩
    · intro h
      rw [hv] at h
      exact absurd h (by simp)
    · intro h
      exact absurd hm (h j hj hpeer)

/-- C7: for `N ≥ 1` and a board of `N^4` cells with values in `[0, N^2]`,
`is_solved` returns a verdict; the verdict is true if and only if every row,
every column and every subgrid holds each digit of `1..N^2` exactly once; the
marker test (every digit shown in every unit) is equivalent to that; and then
no cell is zero. -/
theorem is_solved_iff_permutation (N : Nat) (M : Board) (hN : 1 ≤ N)
    (hlen : M.length = N ^ 4) (hrange : ∀ x ∈ M, x ≤ N ^ 2) :
    (is_solved N M = some true ∨ is_solved N M = some false) ∧
    (is_solved N M = some true ↔ Solved N M) ∧
    (AllSeen N M ↔ Solved N M) ∧
    (Solved N M → ∀ j, j < N ^ 4 → ∃ d, 1 ≤ d ∧ d ≤ N ^ 2 ∧ M[j]? = some d) := by
  have hM := wellFormed_of hlen hrange
  refine ⟨?_, is_solved_iff N M hN hM, allSeen_iff_solved N M, ?_⟩
  · rcases is_solved_scan N M hN hM with ⟨hs, _⟩ | ⟨hs, _⟩
    · exact Or.inl hs
    · exact Or.inr hs
  · intro h j hj
    rw [pow4] at hj
    rw [pow_two]
    exact h.cell_range hj

theorem noClash_iff (N : Nat) (M : Board) :
    NoClash N M ↔ ∀ i, i < N * N * (N * N) → ¬ Conflict N M i := by
  unfold NoClash
  rw [pow4]
  constructor
  · rintro h i hi ⟨x, j, hx0, hxi, hj, hji, hpeer, hm⟩
    exact h i j x hi hj (Ne.symm hji) hpeer hx0 hxi hm
  · intro h i j x hi hj hij hpeer hx0 hxi hm
    exact h i hi ⟨x, j, hx0, hxi, hj, Ne.symm hij, hpeer, hm⟩

/-- The test `solvable` makes at a nonzero cell accepts the cell's value
exactly when the cell is free of conflict. -/
theorem valid_cleared_iff (N : Nat) (M : Board) (hlen : M.length = N * N * (N * N))
    (i x : Nat) (hi : i < N * N * (N * N)) (hxi : M[i]? = some x) (hx0 : x ≠ 0) :
    valid_move N (M.set i 0) i x = some true ↔ ¬ Conflict N M i := by
  have hil : i < M.length := by rw [hlen]; exact hi
  rcases valid_move_spec N (M.set i 0) i x (by rw [List.length_set]; exact hlen) hi with
    ⟨hv, hp⟩ | ⟨hv, j, hj, hpeer, hm⟩
  · refine ⟨fun _ => ?_, fun _ => hv⟩
    rintro ⟨y, j, _, hyi, hj, hji, hpeer, hm⟩
    rw [hxi] at hyi
    have := Option.some.inj hyi
    subst this
    exact hp j hj hpeer (by rw [List.getElem?_set_ne (Ne.symm hji)]; exact hm)
  · constructor
    · intro h
      rw [hv] at h
      exact absurd h (by simp)
    · intro h
      exfalso
      apply h
      have hji : j ≠ i := by
        rintro rfl
        rw [List.getElem?_set_self hil] at hm
        exact hx0 (Option.some.inj hm).symm
      rw [List.getElem?_set_ne (Ne.symm hji)] at hm
      exact ⟨x, j, hx0, hxi, hj, hji, hpeer, hm⟩

/-- C8: for a board of `N^4` cells, `solvable` returns a verdict; the verdict
is true if and only if no two distinct cells that share a row, a column or a
subgrid hold the same nonzero value; that is the same as `valid_move` accepting,
for every nonzero cell, the cell's value on the board with the cell cleared; and
two cells of one row with the same nonzero value make the verdict false. -/
theorem solvable_iff_no_clash (N : Nat) (M : Board) (hlen : M.length = N ^ 4) :
    (∃ b M1, solvable N M = some (b, M1)) ∧
    ((∃ M1, solvable N M = some (true, M1)) ↔ NoClash N M) ∧
    (NoClash N M ↔ ∀ (i x : Nat), i < N ^ 4 → M[i]? = some x → x ≠ 0 →
      valid_move N (M.set i 0) i x = some true) ∧
    (∀ (i j x : Nat), i < N ^ 4 → j < N ^ 4 → i ≠ j → inRow N (i / (N * N)) j → x ≠ 0 →
      M[i]? = some x → M[j]? = some x → ∃ M1, solvable N M = some (false, M1)) := by
  have hlen1 : M.length = N * N * (N * N) := by rw [hlen, pow4]
  have hval : NoClash N M ↔ ∀ (i x : Nat), i < N ^ 4 → M[i]? = some x → x ≠ 0 →
      valid_move N (M.set i 0) i x = some true := by
    rw [noClash_iff, pow4]
    constructor
    · intro h i x hi hxi hx0
      exact (valid_cleared_iff N M hlen1 i x hi hxi hx0).mpr (h i hi)
    · intro h i hi hc
      obtain ⟨x, j, hx0, hxi, hrest⟩ := hc
      exact (valid_cleared_iff N M hlen1 i x hi hxi hx0).mp (h i x hi hxi hx0)
        ⟨x, j, hx0, hxi, hrest⟩
  rcases solvable_spec N M hlen1 with ⟨hs, hp⟩ | ⟨hs, i, hi, hc⟩
  · have hno : NoClash N M := (noClash_iff N M).mpr hp
    refine ⟨⟨true, M, hs⟩, ⟨fun _ => hno, fun _ => ⟨M, hs⟩⟩, hval, ?_⟩
    intro i j x hi hj hij hrow hx0 hxi hxj
    exact absurd hxj (hno i j x hi hj hij (Or.inl hrow) hx0 hxi)
  · have hno : ¬ NoClash N M := fun h => (noClash_iff N M).mp h i hi hc
    refine ⟨⟨false, M, hs⟩, ⟨?_, fun h => absurd h hno⟩, hval, fun _ _ _ _ _ _ _ _ _ _ => ⟨M, hs⟩⟩
    rintro ⟨M1, h1⟩
    rw [hs] at h1
    exact absurd h1 (by simp)

/-- C9: for `N ≥ 1` and a board of `N^4` cells with values in `[0, N^2]`, when
`solvable` returns false on the board, `solve` returns false on the same board
(and leaves it as it was). -/
theorem solvable_false_solve_false (N : Nat) (M : Board) (hN : 1 ≤ N)
    (hlen : M.length = N ^ 4) (hrange : ∀ x ∈ M, x ≤ N ^ 2)
    (M1 : Board) (h : solvable N M = some (false, M1)) :
    solve N M = some (false, M) := by
  have hM := wellFormed_of hlen hrange
  rcases solvable_spec N M hM.length_eq with ⟨hs, _⟩ | ⟨_, i, hi, x, j, hx0, hxi, hj, hji, hpeer, hxj⟩
  · rw [hs] at h
    exact absurd h (by simp)
  · have hno : ∀ S, ¬ Solution N M S := by
      rintro S ⟨_, hag, hsol⟩
      have hSi := hag i x hxi hx0
      have hSj := hag j x hxj hx0
      obtain ⟨d, hd1, hd2, hd⟩ := hsol.cell_range hi
      rw [hSi] at hd
      have := Option.some.inj hd
      subst this
      exact hji (hsol.no_dup hi hj hpeer hd1 hd2 hSi hSj)
    rcases solve_spec N M hN hM with ⟨M2, _, hf⟩ | ⟨hs, _⟩
    · exact absurd (hf.solution hN) (hno M2)
    · exact hs

/-- C10: for a board of `N^4` cells, `solvable` returns a verdict and the board
it leaves behind is the board before the call, cell for cell, whether the
verdict is true or false. -/
theorem solvable_restores (N : Nat) (M : Board) (hlen : M.length = N ^ 4) :
    (∃ b, solvable N M = some (b, M)) ∧
    ∀ b M1, solvable N M = some (b, M1) → M1 = M := by
  have hlen1 : M.length = N * N * (N * N) := by rw [hlen, pow4]
  rcases solvable_spec N M hlen1 with ⟨hs, _⟩ | ⟨hs, _⟩
  · refine ⟨⟨true, hs⟩, ?_⟩
    intro b M1 h
    rw [hs] at h
    exact (congrArg Prod.snd (Option.some.inj h)).symm
  · refine ⟨⟨false, hs⟩, ?_⟩
    intro b M1 h
    rw [hs] at h
    exact (congrArg Prod.snd (Option.some.inj h)).symm

theorem solve_true_iff_solution_exists_witness :
    (1 ≤ 2 ∧ blank4.length = 2 ^ 4 ∧ ∀ x ∈ blank4, x ≤ 2 ^ 2) ∧
    (∃ b M1, solve 2 blank4 = some (b, M1)) ∧
    ((∃ M1, solve 2 blank4 = some (true, M1)) ↔ ∃ S, Solution 2 blank4 S) :=
  ⟨⟨by decide, by decide, by decide⟩,
    solve_true_iff_solution_exists 2 blank4 (by decide) (by decide) (by decide)⟩

theorem solve_true_is_solved_witness :
    solve 2 given4 = some (true, [2, 1, 3, 4, 3, 4, 2, 1, 4, 3, 1, 2, 1, 2, 4, 3]) ∧
    is_solved 2 [2, 1, 3, 4, 3, 4, 2, 1, 4, 3, 1, 2, 1, 2, 4, 3] = some true :=
  ⟨by decide,
    (solve_true_is_solved 2 given4 (by decide) (by decide) (by decide)).2 _ (by decide)⟩

theorem solve_false_restores_witness :
    solve 2 clash4 = some (false, clash4) ∧ (∀ M1, solve 2 clash4 = some (false, M1) → M1 = clash4) :=
  ⟨by decide,
    (solve_false_restores 2 clash4 (by decide) (by decide) (by decide)).2.1⟩

theorem solve_keeps_given_cells_witness :
    given4.length = 2 ^ 4 ∧
    ∀ b M1, solve 2 given4 = some (b, M1) →
      M1.length = 2 ^ 4 ∧ ∀ (j x : Nat), given4[j]? = some x → x ≠ 0 → M1[j]? = some x :=
  ⟨by decide, (solve_keeps_given_cells 2 given4 (by decide)).1⟩

theorem solve_true_least_witness :
    solve 2 blank4 = some (true, first4) ∧
    Solution 2 blank4 first4 ∧ ∀ S, Solution 2 blank4 S → LexLE first4 S :=
  ⟨by decide,
    solve_true_least 2 blank4 (by decide) (by decide) (by decide) first4 (by decide)⟩

theorem valid_move_iff_no_peer_holds_witness :
    (clash4.length = 2 ^ 4 ∧ 5 < 2 ^ 4) ∧
    (valid_move 2 clash4 5 3 = some true ↔
      ∀ j, j < 2 ^ 4 → peer 2 5 j → clash4[j]? ≠ some 3) :=
  ⟨⟨by decide, by decide⟩,
    (valid_move_iff_no_peer_holds 2 clash4 5 3 (by decide) (by decide)).2.1⟩

theorem is_solved_iff_permutation_witness :
    (1 ≤ 2 ∧ first4.length = 2 ^ 4 ∧ ∀ x ∈ first4, x ≤ 2 ^ 2) ∧
    (is_solved 2 first4 = some true ↔ Solved 2 first4) :=
  ⟨⟨by decide, by decide, by decide⟩,
    (is_solved_iff_permutation 2 first4 (by decide) (by decide) (by decide)).2.1⟩

theorem solvable_iff_no_clash_witness :
    clash4.length = 2 ^ 4 ∧
    ((∃ M1, solvable 2 clash4 = some (true, M1)) ↔ NoClash 2 clash4) :=
  ⟨by decide, (solvable_iff_no_clash 2 clash4 (by decide)).2.1⟩

theorem solvable_false_solve_false_witness :
    solvable 2 clash4 = some (false, clash4) ∧ solve 2 clash4 = some (false, clash4) :=
  ⟨by decide,
    solvable_false_solve_false 2 clash4 (by decide) (by decide) (by decide) clash4 (by decide)⟩

theorem solvable_restores_witness :
    clash4.length = 2 ^ 4 ∧ (∃ b, solvable 2 clash4 = some (b, clash4)) ∧
    (∃ b, solvable 2 given4 = some (b, given4)) :=
  ⟨by decide, (solvable_restores 2 clash4 (by decide)).1, (solvable_restores 2 given4 (by decide)).1⟩

/-! ## What a verdict of `is_solved` says about the cells -/

/-- A marking scan of a row that produces an outcome has read only cells that
are marker positions. -/
theorem row_marks_sound (M : Board) (ri hi n : Nat) (bs : List Bool)
    (r : Flow Bool (List Bool)) (hbs : bs.length = n)
    (h : forRange 0 hi 1 (fun ci vf1 => mark M (ri + ci) vf1) bs = some r) :
    ∃ bs1, r = Flow.next bs1 ∧ bs1.length = n ∧
      ∀ l, l < hi → ∃ x, M[ri + l]? = some x ∧ x < n := by
  have key := forLoop_sound hi 1 (fun ci vf1 => mark M (ri + ci) vf1)
    (fun l s => s.length = n ∧ ∀ l1, l1 < l → l1 < hi → ∃ x, M[ri + l1]? = some x ∧ x < n)
    (fun _ => False)
    (by
      rintro l s r1 hl ⟨hs, hprev⟩ hb
      simp only [mark] at hb
      cases hx : M[ri + l]? with
      | none => rw [hx] at hb; exact absurd hb (by simp)
      | some x =>
        rw [hx] at hb
        simp only [bitsetSet] at hb
        by_cases hlt : x < s.length
        · rw [if_pos hlt] at hb
          simp only at hb
          rw [← Option.some.inj hb]
          refine ⟨by rw [List.length_set]; exact hs, ?_⟩
          intro l1 hl1 hl1hi
          rcases Nat.lt_succ_iff_lt_or_eq.mp hl1 with h1 | h1
          · exact hprev l1 h1 hl1hi
          · subst h1
            exact ⟨x, hx, by omega⟩
        · rw [if_neg hlt] at hb
          exact absurd hb (by simp))
    (hi - 0) 0 bs r ⟨hbs, fun l1 hl1 => absurd hl1 (Nat.not_lt_zero _)⟩ h
  cases r with
  | ret b => exact absurd key id
  | next bs1 =>
    obtain ⟨j1, hj1, hlen, hall⟩ := key
    exact ⟨bs1, rfl, hlen, fun l hl => hall l (by omega) hl⟩

/-- When `is_solved` returns true, the row tests have read every cell, and
every cell read was a marker position: the board has its values in `[0, N^2]`. -/
theorem wellFormed_of_is_solved (N : Nat) (M : Board) (hN : 0 < N)
    (hlen : M.length = N * N * (N * N)) (h : is_solved N M = some true) :
    WellFormed N M := by
  have hsq : 0 < N * N := Nat.mul_pos hN hN
  refine ⟨hlen, ?_⟩
  cases hrows : forRange 0 (N * N * (N * N)) (N * N) (fun ri vf =>
      settle (sentinel vf (forRange 0 (N * N) 1 (fun ci vf1 => mark M (ri + ci) vf1))))
      (bitsetNew (N * N)) with
  | none =>
    unfold is_solved at h
    dsimp only at h
    rw [hrows] at h
    exact absurd h (by simp)
  | some r =>
    have key := forLoop_sound (N * N * (N * N)) (N * N) (fun ri vf =>
        settle (sentinel vf (forRange 0 (N * N) 1 (fun ci vf1 => mark M (ri + ci) vf1))))
      (fun j s => s.length = N * N + 1 ∧ ∃ m, j = m * (N * N) ∧
        ∀ k l, k < m → l < N * N → ∃ x, M[k * (N * N) + l]? = some x ∧ x < N * N + 1)
      (fun b => b = false)
      (by
        rintro j s r1 _ ⟨hs, m, rfl, hprev⟩ hb
        simp only [sentinel, bitsetSet] at hb
        rw [if_pos (by omega)] at hb
        simp only at hb
        cases hscan : forRange 0 (N * N) 1 (fun ci vf1 => mark M (m * (N * N) + ci) vf1)
            (s.set 0 true) with
        | none => rw [hscan] at hb; simp [settle] at hb
        | some r2 =>
          obtain ⟨bs1, rfl, hlen1, hcells⟩ := row_marks_sound M (m * (N * N)) (N * N)
            (N * N + 1) (s.set 0 true) r2 (by rw [List.length_set]; exact hs) hscan
          rw [hscan] at hb
          simp only [settle] at hb
          by_cases hall : bitsetAll bs1 = true
          · rw [if_pos hall] at hb
            rw [← Option.some.inj hb]
            refine ⟨by simp [bitsetReset, hlen1], m + 1, by ring, ?_⟩
            intro k l hk hl
            rcases Nat.lt_succ_iff_lt_or_eq.mp hk with h1 | h1
            · exact hprev k l h1 hl
            · subst h1
              exact hcells l hl
          · rw [if_neg hall] at hb
            rw [← Option.some.inj hb]
            rfl)
      (N * N * (N * N) - 0) 0 (bitsetNew (N * N)) r
      ⟨by simp [bitsetNew], 0, by simp, fun k l hk => absurd hk (Nat.not_lt_zero _)⟩ hrows
    cases r with
    | ret b =>
      unfold is_solved at h
      dsimp only at h
      rw [hrows] at h
      have hb : b = false := key
      subst hb
      exact absurd h (by simp)
    | next vf =>
      obtain ⟨j1, hj1, _, m, rfl, hcells⟩ := key
      have hm : N * N ≤ m := by
        by_contra hc
        have : m * (N * N) < N * N * (N * N) :=
          Nat.mul_lt_mul_of_pos_right (Nat.lt_of_not_le hc) hsq
        omega
      intro j x hx
      have hj : j < N * N * (N * N) := by rw [← hlen]; exact lt_length_of_get hx
      have hk : j / (N * N) < m := lt_of_lt_of_le (Nat.div_lt_of_lt_mul hj) hm
      obtain ⟨y, hy, hylt⟩ := hcells (j / (N * N)) (j % (N * N)) hk (Nat.mod_lt _ hsq)
      have e : j / (N * N) * (N * N) + j % (N * N) = j := by
        rw [Nat.mul_comm]; exact Nat.div_add_mod j (N * N)
      rw [e] at hy
      rw [hx] at hy
      rw [Option.some.inj hy]
      omega

/-- A solved board is the only solution of the puzzle obtained from it by
clearing one cell. -/
theorem solution_of_cleared_unique {N : Nat} {S T : Board} {i : Nat}
    (hlen : S.length = N * N * (N * N)) (hS : Solved N S) (hi : i < N * N * (N * N))
    (hT : Solution N (S.set i 0) T) : T = S := by
  obtain ⟨hTlen, hag, hTsol⟩ := hT
  have hil : i < S.length := by rw [hlen]; exact hi
  have hsq : 0 < N * N := by
    rcases Nat.eq_zero_or_pos (N * N) with h | h
    · rw [h] at hi; simp at hi
    · exact h
  have hother : ∀ j, j ≠ i → j < N * N * (N * N) → T[j]? = S[j]? := by
    intro j hji hj
    obtain ⟨d, hd1, _, hd⟩ := hS.cell_range hj
    rw [hd]
    exact hag j d (by rw [List.getElem?_set_ne (Ne.symm hji)]; exact hd) (by omega)
  obtain ⟨d, hd1, hd2, hd⟩ := hS.cell_range hi
  have hTi : T[i]? = some d := by
    have hr : i / (N * N) < N * N := Nat.div_lt_of_lt_mul hi
    obtain ⟨j0, ⟨hj0, hrow, hTj0⟩, _⟩ := hTsol.1 (i / (N * N)) hr d hd1 hd2
    by_cases hji : j0 = i
    · rw [← hji]; exact hTj0
    · exfalso
      have hSj0 : S[j0]? = some d := by rw [← hother j0 hji hj0]; exact hTj0
      exact hji (hS.no_dup hi hj0 (Or.inl hrow) hd1 hd2 hd hSj0)
  apply List.ext_getElem?
  intro j
  by_cases hj : j < N * N * (N * N)
  · by_cases hji : j = i
    · rw [hji, hTi, hd]
    · exact hother j hji hj
  · rw [List.getElem?_eq_none (by omega), List.getElem?_eq_none (by omega)]

/-- A board agrees with itself after one cell was cleared. -/
theorem agrees_of_cleared (S : Board) (i : Nat) : Agrees (S.set i 0) S := by
  intro j x hx hx0
  by_cases hji : i = j
  · subst hji
    rw [List.getElem?_set] at hx
    simp only [if_true] at hx
    split at hx
    · exact absurd (Option.some.inj hx).symm hx0
    · exact absurd hx (by simp)
  · rw [List.getElem?_set_ne hji] at hx
    exact hx

/-- C11: for `N ≥ 1`, a board `S` of `N^4` cells on which `is_solved` returns
true and an index `i < N^4`: `solve` on `S` with cell `i` set to 0 returns true
and leaves the board `S`, so the cleared cell is refilled with the digit `S[i]`. -/
theorem solve_refills_cleared_cell (N : Nat) (S : Board) (i : Nat) (hN : 1 ≤ N)
    (hlen : S.length = N ^ 4) (hS : is_solved N S = some true) (hi : i < N ^ 4) :
    solve N (S.set i 0) = some (true, S) := by
  rw [pow4] at hlen hi
  have hWF := wellFormed_of_is_solved N S hN hlen hS
  have hSol : Solved N S := (is_solved_iff N S hN hWF).mp hS
  rcases solve_spec N (S.set i 0) hN (hWF.set i 0 (Nat.zero_le _)) with
    ⟨M1, hs, hf⟩ | ⟨_, hno⟩
  · rw [hs, solution_of_cleared_unique hlen hSol hi (hf.solution hN)]
  · exact absurd ⟨hlen, agrees_of_cleared S i, hSol⟩ (hno S)

/-- C12: for `N ≥ 1` and a board of `N^4` cells on which `is_solved` returns
true (such a board has no zero cell): `solve` returns true and leaves every
cell of the board as it was. -/
theorem solve_keeps_solved_board (N : Nat) (M : Board) (hN : 1 ≤ N)
    (hlen : M.length = N ^ 4) (hS : is_solved N M = some true) :
    solve N M = some (true, M) ∧ ∀ j, j < N ^ 4 → M[j]? ≠ some 0 := by
  rw [pow4] at hlen ⊢
  have hWF := wellFormed_of_is_solved N M hN hlen hS
  have hSol : Solved N M := (is_solved_iff N M hN hWF).mp hS
  have hfull : ∀ j, j < N * N * (N * N) → M[j]? ≠ some 0 := by
    intro j hj h0
    obtain ⟨d, hd1, _, hd⟩ := hSol.cell_range hj
    rw [hd] at h0
    have := Option.some.inj h0
    omega
  refine ⟨?_, hfull⟩
  rcases solve_spec N M hN hWF with ⟨M1, hs, hf⟩ | ⟨_, hno⟩
  · rw [hs, eq_of_agrees_full hlen hf.2.1.length_eq hfull hf.2.2.1]
  · exact absurd ⟨hlen, Agrees.refl M, hSol⟩ (hno M)

/-- C13: for `N = 2` and the board of 16 zero cells, `solvable` returns true,
`solve` returns true, and `is_solved` returns true on the board `solve` leaves. -/
theorem blank4_solves :
    solvable 2 (List.replicate 16 0) = some (true, List.replicate 16 0) ∧
    solve 2 (List.replicate 16 0) = some (true, first4) ∧ is_solved 2 first4 = some true :=
  ⟨by decide, by decide, by decide⟩

theorem solve_refills_cleared_cell_witness :
    (1 ≤ 2 ∧ first4.length = 2 ^ 4 ∧ is_solved 2 first4 = some true ∧ 6 < 2 ^ 4) ∧
    solve 2 (first4.set 6 0) = some (true, first4) :=
  ⟨⟨by decide, by decide, by decide, by decide⟩,
    solve_refills_cleared_cell 2 first4 6 (by decide) (by decide) (by decide) (by decide)⟩

theorem solve_keeps_solved_board_witness :
    (1 ≤ 2 ∧ first4.length = 2 ^ 4 ∧ is_solved 2 first4 = some true) ∧
    solve 2 first4 = some (true, first4) :=
  ⟨⟨by decide, by decide, by decide⟩,
    (solve_keeps_solved_board 2 first4 (by decide) (by decide) (by decide)).1⟩

/-! ## Termination -/

/-- With a positive stride, any fuel of at least `hi - j` gives the loop the
same outcome: the guard fails before the fuel is used up. -/
theorem forLoop_fuel {ρ σ : Type} (hi step : Nat) (body : Nat → σ → Option (Flow ρ σ))
    (hstep : 0 < step) :
    ∀ fuel1 fuel2 j s, hi - j ≤ fuel1 → hi - j ≤ fuel2 →
      forLoop hi step body fuel1 j s = forLoop hi step body fuel2 j s := by
  intro fuel1
  induction fuel1 with
  | zero =>
    intro fuel2 j s h1 _
    have hj : hi ≤ j := by omega
    rw [forLoop_exit hi step body 0 j s hj, forLoop_exit hi step body fuel2 j s hj]
  | succ n ih =>
    intro fuel2 j s h1 h2
    by_cases hj : j < hi
    · cases fuel2 with
      | zero => omega
      | succ n2 =>
        rw [forLoop_succ, forLoop_succ, if_pos hj, if_pos hj]
        cases hb : body j s with
        | none => rfl
        | some r =>
          cases r with
          | ret x => rfl
          | next s1 => exact ih n2 (j + step) s1 (by omega) (by omega)
    · have hj2 : hi ≤ j := Nat.le_of_not_lt hj
      rw [forLoop_exit hi step body (n + 1) j s hj2, forLoop_exit hi step body fuel2 j s hj2]

/-- Two bodies that agree on the states of an invariant give the loop the same
outcome. -/
theorem forLoop_congr {ρ σ : Type} (hi step : Nat) (body1 body2 : Nat → σ → Option (Flow ρ σ))
    (I : σ → Prop)
    (hbody : ∀ j s, j < hi → I s → body1 j s = body2 j s ∧
      ∀ s1, body1 j s = some (Flow.next s1) → I s1) :
    ∀ fuel j s, I s → forLoop hi step body1 fuel j s = forLoop hi step body2 fuel j s := by
  intro fuel
  induction fuel with
  | zero => intro j s _; rfl
  | succ n ih =>
    intro j s hI
    rw [forLoop_succ, forLoop_succ]
    by_cases hj : j < hi
    · rw [if_pos hj, if_pos hj]
      obtain ⟨heq, hpres⟩ := hbody j s hj hI
      rw [← heq]
      cases hb : body1 j s with
      | none => rfl
      | some r =>
        cases r with
        | ret x => rfl
        | next s1 => exact ih (j + step) s1 (hpres s1 hb)
    · rw [if_neg hj, if_neg hj]

/-- With a positive stride and enough fuel, a loop yields no outcome only when
one of its iterations yields none. -/
theorem forLoop_none {ρ σ : Type} (hi step : Nat) (body : Nat → σ → Option (Flow ρ σ))
    (I : σ → Prop) (hstep : 0 < step)
    (hpres : ∀ j s s1, j < hi → I s → body j s = some (Flow.next s1) → I s1) :
    ∀ fuel j s, hi - j ≤ fuel → I s → forLoop hi step body fuel j s = none →
      ∃ j1 s1, j1 < hi ∧ I s1 ∧ body j1 s1 = none := by
  intro fuel
  induction fuel with
  | zero =>
    intro j s hf _ h
    rw [forLoop_exit hi step body 0 j s (by omega)] at h
    exact absurd h (by simp)
  | succ n ih =>
    intro j s hf hI h
    by_cases hj : j < hi
    · rw [forLoop_succ, if_pos hj] at h
      cases hb : body j s with
      | none => exact ⟨j, s, hj, hI, hb⟩
      | some r =>
        rw [hb] at h
        cases r with
        | ret x => exact absurd h (by simp)
        | next s1 => exact ih (j + step) s1 (by omega) (hpres j s s1 hj hI hb) h
    · rw [forLoop_exit hi step body (n + 1) j s (Nat.le_of_not_lt hj)] at h
      exact absurd h (by simp)

/-- What `candidate` passes on to the next iteration has the length of the
board it was given. -/
theorem candidate_length (N i fuel t : Nat) (B B1 : Board)
    (h : candidate N i (attempt N fuel (i + 1)) t B = some (Flow.next B1)) :
    B1.length = B.length := by
  unfold candidate at h
  cases hv : valid_move N B i t with
  | none => rw [hv] at h; exact absurd h (by simp)
  | some v =>
    rw [hv] at h
    cases v with
    | false =>
      dsimp only at h
      rw [← Flow.next.inj (Option.some.inj h)]
    | true =>
      dsimp only at h
      cases hrec : attempt N fuel (i + 1) (B.set i t) with
      | none => rw [hrec] at h; exact absurd h (by simp)
      | some p =>
        obtain ⟨b2, M2⟩ := p
        rw [hrec] at h
        cases b2 with
        | true => exact absurd h (by simp)
        | false =>
          dsimp only at h
          rw [← Flow.next.inj (Option.some.inj h), (attempt_frame N _ _ _ _ _ hrec).1,
            List.length_set]

/-- The measure `N^4 - i`: at cell `i` of a board of `N^4` cells, any fuel of
at least `N^4 + 1 - i` gives `attempt` the same outcome. -/
theorem attempt_fuel (N : Nat) :
    ∀ fuel1 fuel2 i (B : Board), B.length = N * N * (N * N) → i ≤ N * N * (N * N) →
      N * N * (N * N) + 1 - i ≤ fuel1 → N * N * (N * N) + 1 - i ≤ fuel2 →
      attempt N fuel1 i B = attempt N fuel2 i B := by
  intro fuel1
  induction fuel1 with
  | zero => intro fuel2 i B _ hi h1 _; omega
  | succ n ih =>
    intro fuel2 i B hB hi h1 h2
    cases fuel2 with
    | zero => omega
    | succ n2 =>
      rw [attempt_succ, attempt_succ]
      by_cases hts : i = N * N * (N * N)
      · rw [if_pos hts, if_pos hts]
      · rw [if_neg hts, if_neg hts]
        cases hx : B[i]? with
        | none => rfl
        | some x =>
          dsimp only
          by_cases h0 : x = 0
          · rw [if_neg (by simpa using h0), if_neg (by simpa using h0)]
            have hloop : forRange 1 (N * N + 1) 1 (candidate N i (attempt N n (i + 1))) B =
                forRange 1 (N * N + 1) 1 (candidate N i (attempt N n2 (i + 1))) B := by
              unfold forRange
              refine forLoop_congr (N * N + 1) 1 _ _ (fun s => s.length = N * N * (N * N))
                ?_ _ 1 B hB
              intro t s _ hs
              refine ⟨?_, fun s1 h => (candidate_length N i n t s s1 h).trans hs⟩
              unfold candidate
              rw [ih n2 (i + 1) (s.set i t) (by rw [List.length_set]; exact hs) (by omega)
                (by omega) (by omega)]
            rw [hloop]
          · rw [if_pos h0, if_pos h0]
            exact ih n2 (i + 1) B hB (by omega) (by omega) (by omega)

/-- With enough fuel, `attempt` on a board of `N^4` cells yields no outcome only
when a call of `is_solved` on a board of `N^4` cells yields none. -/
theorem attempt_none (N : Nat) :
    ∀ fuel i (B : Board), B.length = N * N * (N * N) → i ≤ N * N * (N * N) →
      N * N * (N * N) + 1 - i ≤ fuel → attempt N fuel i B = none →
      ∃ B1 : Board, B1.length = N * N * (N * N) ∧ is_solved N B1 = none := by
  intro fuel
  induction fuel with
  | zero => intro i B _ hi hf _; omega
  | succ n ih =>
    intro i B hB hi hf h
    rw [attempt_succ] at h
    by_cases hts : i = N * N * (N * N)
    · rw [if_pos hts] at h
      cases hs : is_solved N B with
      | none => exact ⟨B, hB, hs⟩
      | some b => rw [hs] at h; exact absurd h (by simp)
    · rw [if_neg hts] at h
      have hi1 : i < N * N * (N * N) := by omega
      have hx : B[i]? = some B[i] := List.getElem?_eq_getElem (by rw [hB]; exact hi1)
      rw [hx] at h
      dsimp only at h
      by_cases h0 : B[i] = 0
      · rw [if_neg (by simpa using h0)] at h
        cases hloop : forRange 1 (N * N + 1) 1 (candidate N i (attempt N n (i + 1))) B with
        | some r =>
          rw [hloop] at h
          cases r with
          | ret p => exact absurd h (by simp)
          | next M1 => exact absurd h (by simp)
        | none =>
          obtain ⟨t, s, _, hs, hc⟩ := forLoop_none (N * N + 1) 1
            (candidate N i (attempt N n (i + 1))) (fun s => s.length = N * N * (N * N))
            Nat.one_pos
            (fun t s s1 _ hs hc => (candidate_length N i n t s s1 hc).trans hs)
            (N * N + 1 - 1) 1 B (le_refl _) hB hloop
          unfold candidate at hc
          rcases valid_move_spec N s i t hs hi1 with ⟨hv, _⟩ | ⟨hv, _⟩
          · rw [hv] at hc
            dsimp only at hc
            cases hrec : attempt N n (i + 1) (s.set i t) with
            | none =>
              exact ih (i + 1) (s.set i t) (by rw [List.length_set]; exact hs) (by omega)
                (by omega) hrec
            | some p =>
              obtain ⟨b2, M2⟩ := p
              rw [hrec] at hc
              cases b2 with
              | true => exact absurd hc (by simp)
              | false => exact absurd hc (by simp)
          · rw [hv] at hc
            exact absurd hc (by simp)
      · rw [if_pos h0] at h
        exact ih (i + 1) B hB (by omega) (by omega) h

/-! ## The scans of `valid_move` -/

/-- The base indices are the ones `valid_move` scans from. -/
theorem valid_move_bases (N : Nat) (M : Board) (i t : Nat) :
    valid_move N M i t =
      match forRange (rbi N i) (rbi N i + N * N) 1 (hit M t) () with
      | none => none
      | some (Flow.ret b) => some b
      | some (Flow.next _) =>
        match forRange (cbi N i) (N * N * (N * N)) (N * N) (hit M t) () with
        | none => none
        | some (Flow.ret b) => some b
        | some (Flow.next _) =>
          match forRange (sbi N i) (sbi N i + N * N * N) (N * N)
              (fun ri _ => forRange 0 N 1 (fun ci u => hit M t (ri + ci) u) ()) () with
          | none => none
          | some (Flow.ret b) => some b
          | some (Flow.next _) => some true := rfl

theorem note_notes (j : Nat) : Notes (note j) [j] := fun _ => rfl

/-- A loop of noting scans notes the concatenation of what its iterations
note; `m` is the number of iterations. -/
theorem forRange_notes (lo hi step m : Nat)
    (body : Nat → List Nat → Option (Flow Bool (List Nat))) (L : Nat → List Nat)
    (hstep : 0 < step) (hm : ∀ k, lo + k * step < hi ↔ k < m)
    (hbody : ∀ k, k < m → Notes (body (lo + k * step)) (L k)) :
    Notes (forRange lo hi step body) ((List.range m).flatMap L) := by
  intro seen
  have key := forLoop_total hi step body
    (fun j s => ∃ n, n ≤ m ∧ j = lo + n * step ∧ s = seen ++ (List.range n).flatMap L)
    (fun _ => False) hstep
    (by
      rintro j s hj ⟨n, _, rfl, rfl⟩
      have hn : n < m := (hm n).mp hj
      refine ⟨_, hbody n hn _, n + 1, hn, by ring, ?_⟩
      rw [List.range_succ, List.flatMap_append, List.flatMap_singleton, List.append_assoc])
    (hi - lo) lo seen (le_refl _) ⟨0, Nat.zero_le _, by simp, by simp⟩
  obtain ⟨r, hr, hsat⟩ := key
  cases r with
  | ret x => exact absurd hsat id
  | next s1 =>
    obtain ⟨j1, hj1, n, hn, rfl, rfl⟩ := hsat
    have : n = m := by
      rcases Nat.lt_or_ge n m with h | h
      · have := (hm n).mpr h
        omega
      · omega
    subst this
    exact hr

theorem rbi_val (N i : Nat) : rbi N i = N * N * (i / (N * N)) := rbi_eq (N * N) i

theorem sbi_val (N i : Nat) :
    sbi N i = N * N * (N * (i / (N * N) / N)) + N * (i % (N * N) / N) := sbi_eq N i

theorem rowScan_eq (N i : Nat) :
    rowScan N i = (List.range (N * N)).map (fun k => N * N * (i / (N * N)) + k) := by
  have h := forRange_notes (rbi N i) (rbi N i + N * N) 1 (N * N) note
    (fun k => [N * N * (i / (N * N)) + k]) Nat.one_pos (fun k => by omega)
    (fun k _ => by
      have e : rbi N i + k * 1 = N * N * (i / (N * N)) + k := by rw [rbi_val]; omega
      rw [e]
      exact note_notes _)
  unfold rowScan
  rw [h [], List.map_eq_flatMap]
  simp [readsOf]

theorem colScan_eq (N i : Nat) (hN : 0 < N) :
    colScan N i = (List.range (N * N)).map (fun k => N * N * k + i % (N * N)) := by
  have hsq : 0 < N * N := Nat.mul_pos hN hN
  have hc : i % (N * N) < N * N := Nat.mod_lt _ hsq
  have h := forRange_notes (cbi N i) (N * N * (N * N)) (N * N) (N * N) note
    (fun k => [N * N * k + i % (N * N)]) hsq
    (fun k => by
      unfold cbi
      constructor
      · intro hk
        by_contra hcon
        have : N * N * (N * N) ≤ k * (N * N) :=
          Nat.mul_le_mul_right _ (Nat.le_of_not_lt hcon)
        omega
      · intro hk
        have := block_lt hk hc
        calc i % (N * N) + k * (N * N) = N * N * k + i % (N * N) := by ring
          _ < _ := this)
    (fun k _ => by
      have e : cbi N i + k * (N * N) = N * N * k + i % (N * N) := by unfold cbi; ring
      rw [e]
      exact note_notes _)
  unfold colScan
  rw [h [], List.map_eq_flatMap]
  simp [readsOf]

theorem subScan_eq (N i : Nat) (hN : 0 < N) :
    subScan N i = (List.range N).flatMap (fun k => (List.range N).map (fun l =>
      N * N * (N * (i / (N * N) / N) + k) + (N * (i % (N * N) / N) + l))) := by
  have hsq : 0 < N * N := Nat.mul_pos hN hN
  have h := forRange_notes (sbi N i) (sbi N i + N * N * N) (N * N) N
    (fun ri seen => forRange 0 N 1 (fun ci seen1 => note (ri + ci) seen1) seen)
    (fun k => (List.range N).map (fun l =>
      N * N * (N * (i / (N * N) / N) + k) + (N * (i % (N * N) / N) + l))) hsq
    (fun k => by rw [Nat.add_lt_add_iff_left, mul_sq_lt_cube hN])
    (fun k _ => by
      have hin := forRange_notes 0 N 1 N
        (fun ci seen1 => note (sbi N i + k * (N * N) + ci) seen1)
        (fun l => [N * N * (N * (i / (N * N) / N) + k) + (N * (i % (N * N) / N) + l)])
        Nat.one_pos (fun l => by omega)
        (fun l _ => by
          have e : sbi N i + k * (N * N) + (0 + l * 1) =
              N * N * (N * (i / (N * N) / N) + k) + (N * (i % (N * N) / N) + l) := by
            rw [sbi_val]; ring
          beta_reduce
          rw [e]
          exact note_notes _)
      intro seen
      have := hin seen
      rw [← List.map_eq_flatMap] at this
      exact this)
  unfold subScan
  rw [h []]
  simp [readsOf]

theorem mem_rowScan (N i j : Nat) (hi : i < N * N * (N * N)) :
    j ∈ rowScan N i ↔ (j < N * N * (N * N) ∧ inRow N (i / (N * N)) j) := by
  rw [rowScan_eq, row_cells (Nat.div_lt_of_lt_mul hi) j, List.mem_map]
  constructor
  · rintro ⟨k, hk, rfl⟩; exact ⟨k, List.mem_range.mp hk, rfl⟩
  · rintro ⟨k, hk, rfl⟩; exact ⟨k, List.mem_range.mpr hk, rfl⟩

theorem mem_colScan (N i j : Nat) (hi : i < N * N * (N * N)) :
    j ∈ colScan N i ↔ (j < N * N * (N * N) ∧ inCol N (i % (N * N)) j) := by
  have hsq : 0 < N * N := by
    rcases Nat.eq_zero_or_pos (N * N) with h | h
    · rw [h] at hi; simp at hi
    · exact h
  have hN : 0 < N := by
    rcases Nat.eq_zero_or_pos N with h | h
    · rw [h] at hsq; simp at hsq
    · exact h
  rw [colScan_eq N i hN, col_cells (Nat.mod_lt _ hsq) j, List.mem_map]
  constructor
  · rintro ⟨k, hk, rfl⟩; exact ⟨k, List.mem_range.mp hk, rfl⟩
  · rintro ⟨k, hk, rfl⟩; exact ⟨k, List.mem_range.mpr hk, rfl⟩

theorem mem_subScan (N i j : Nat) (hi : i < N * N * (N * N)) :
    j ∈ subScan N i ↔
      (j < N * N * (N * N) ∧ inSub N (i / (N * N) / N) (i % (N * N) / N) j) := by
  have hsq : 0 < N * N := by
    rcases Nat.eq_zero_or_pos (N * N) with h | h
    · rw [h] at hi; simp at hi
    · exact h
  have hN : 0 < N := by
    rcases Nat.eq_zero_or_pos N with h | h
    · rw [h] at hsq; simp at hsq
    · exact h
  have ha : i / (N * N) / N < N := div_lt_of_lt_sq (Nat.div_lt_of_lt_mul hi)
  have hb : i % (N * N) / N < N := div_lt_of_lt_sq (Nat.mod_lt _ hsq)
  rw [subScan_eq N i hN, sub_cells ha hb j, List.mem_flatMap]
  constructor
  · rintro ⟨k, hk, hj⟩
    obtain ⟨l, hl, rfl⟩ := List.mem_map.mp hj
    exact ⟨k, l, List.mem_range.mp hk, List.mem_range.mp hl, rfl⟩
  · rintro ⟨k, l, hk, hl, rfl⟩
    exact ⟨k, List.mem_range.mpr hk, List.mem_map.mpr ⟨l, List.mem_range.mpr hl, rfl⟩⟩

theorem rowScan_nodup (N i : Nat) : (rowScan N i).Nodup := by
  rw [rowScan_eq]
  refine List.Nodup.map_on ?_ (List.nodup_range _)
  intro x _ y _ h
  omega

theorem colScan_nodup (N i : Nat) (hN : 0 < N) : (colScan N i).Nodup := by
  rw [colScan_eq N i hN]
  refine List.Nodup.map_on ?_ (List.nodup_range _)
  intro x _ y _ h
  have h1 : N * N * x = N * N * y := by omega
  exact Nat.eq_of_mul_eq_mul_left (Nat.mul_pos hN hN) h1

theorem subScan_nodup (N i : Nat) (hi : i < N * N * (N * N)) : (subScan N i).Nodup := by
  have hsq : 0 < N * N := by
    rcases Nat.eq_zero_or_pos (N * N) with h | h
    · rw [h] at hi; simp at hi
    · exact h
  have hN : 0 < N := by
    rcases Nat.eq_zero_or_pos N with h | h
    · rw [h] at hsq; simp at hsq
    · exact h
  have hb : i % (N * N) / N < N := div_lt_of_lt_sq (Nat.mod_lt _ hsq)
  rw [subScan_eq N i hN, List.nodup_flatMap]
  constructor
  · intro k _
    refine List.Nodup.map_on ?_ (List.nodup_range _)
    intro x _ y _ h
    omega
  · refine List.Pairwise.imp_of_mem ?_ (List.nodup_range N)
    intro k1 k2 _ _ hne
    intro j h1 h2
    obtain ⟨l1, hl1, rfl⟩ := List.mem_map.mp h1
    obtain ⟨l2, hl2, e⟩ := List.mem_map.mp h2
    have d1 := (div_mod_of_eq (x := N * (i / (N * N) / N) + k1)
      (block_lt hb (List.mem_range.mp hl1)) rfl).1
    have d2 := (div_mod_of_eq (x := N * (i / (N * N) / N) + k2)
      (block_lt hb (List.mem_range.mp hl2)) e.symm).1
    rw [d1] at d2
    exact hne (by omega)

theorem subScan_length (N i : Nat) (hN : 0 < N) : (subScan N i).length = N * N := by
  rw [subScan_eq N i hN, List.length_flatMap]
  have : (List.length ∘ fun k => (List.range N).map (fun l =>
      N * N * (N * (i / (N * N) / N) + k) + (N * (i % (N * N) / N) + l))) = fun _ => N := by
    funext k
    simp
  rw [this, List.map_const', List.sum_const_nat, List.length_range]

/-- The verdict of `valid_move` in terms of the cells its three scans read. -/
theorem valid_move_true_iff_scans (N : Nat) (M : Board) (i t : Nat)
    (hlen : M.length = N * N * (N * N)) (hi : i < N * N * (N * N)) :
    valid_move N M i t = some true ↔
      ∀ j, j ∈ rowScan N i ++ colScan N i ++ subScan N i → M[j]? ≠ some t := by
  have hmem : ∀ j, j ∈ rowScan N i ++ colScan N i ++ subScan N i ↔
      (j < N * N * (N * N) ∧ peer N i j) := by
    intro j
    rw [List.mem_append, List.mem_append, mem_rowScan N i j hi, mem_colScan N i j hi,
      mem_subScan N i j hi]
    unfold peer
    tauto
  rcases valid_move_spec N M i t hlen hi with ⟨hv, hp⟩ | ⟨hv, j, hj, hpeer, hm⟩
  · refine ⟨fun _ j hj => ?_, fun _ => hv⟩
    obtain ⟨h1, h2⟩ := (hmem j).mp hj
    exact hp j h1 h2
  · constructor
    · intro h
      rw [hv] at h
      exact absurd h (by simp)
    · intro h
      exact absurd hm (h j ((hmem j).mpr ⟨hj, hpeer⟩))

/-- C15: for an index `i < N^4` (so `N ≥ 1`), with `r = i / N^2` and
`c = i mod N^2`, the base indices `valid_move` scans from are `cbi = c`,
`rbi = r * N^2` and `sbi = (r - r mod N) * N^2 + (c - c mod N)`; `sbi` is a cell
of the subgrid of `i`, with the least row and the least column of that subgrid
(its top-left cell); and the row, column and subgrid scans each read `N^2`
distinct cells, exactly the cells of the row, the column and the subgrid of `i`;
`valid_move` accepts `t` exactly when none of the cells read holds `t`. -/
theorem valid_move_base_indices (N i : Nat) (hi : i < N ^ 4) :
    (cbi N i = i % (N * N) ∧
      rbi N i = i / (N * N) * (N * N) ∧
      sbi N i = (i / (N * N) - i / (N * N) % N) * (N * N) + (i % (N * N) - i % (N * N) % N)) ∧
    (sbi N i < N ^ 4 ∧ inSub N (i / (N * N) / N) (i % (N * N) / N) (sbi N i) ∧
      ∀ j, j < N ^ 4 → inSub N (i / (N * N) / N) (i % (N * N) / N) j →
        sbi N i / (N * N) ≤ j / (N * N) ∧ sbi N i % (N * N) ≤ j % (N * N)) ∧
    ((∀ j, j ∈ rowScan N i ↔ (j < N ^ 4 ∧ inRow N (i / (N * N)) j)) ∧
      (rowScan N i).length = N * N ∧ (rowScan N i).Nodup) ∧
    ((∀ j, j ∈ colScan N i ↔ (j < N ^ 4 ∧ inCol N (i % (N * N)) j)) ∧
      (colScan N i).length = N * N ∧ (colScan N i).Nodup) ∧
    ((∀ j, j ∈ subScan N i ↔
        (j < N ^ 4 ∧ inSub N (i / (N * N) / N) (i % (N * N) / N) j)) ∧
      (subScan N i).length = N * N ∧ (subScan N i).Nodup) ∧
    (∀ (M : Board) (t : Nat), M.length = N ^ 4 →
      (valid_move N M i t = some true ↔
        ∀ j, j ∈ rowScan N i ++ colScan N i ++ subScan N i → M[j]? ≠ some t)) := by
  rw [pow4] at hi ⊢
  have hsq : 0 < N * N := by
    rcases Nat.eq_zero_or_pos (N * N) with h | h
    · rw [h] at hi; simp at hi
    · exact h
  have hN : 0 < N := by
    rcases Nat.eq_zero_or_pos N with h | h
    · rw [h] at hsq; simp at hsq
    · exact h
  have ha : i / (N * N) / N < N := div_lt_of_lt_sq (Nat.div_lt_of_lt_mul hi)
  have hb : i % (N * N) / N < N := div_lt_of_lt_sq (Nat.mod_lt _ hsq)
  have hcorner := (sub_cells ha hb (sbi N i)).mpr ⟨0, 0, hN, hN, by rw [sbi_val]; ring⟩
  have hdm := div_mod_of_eq (x := N * (i / (N * N) / N)) (j := sbi N i)
    (block_lt hb hN) (by rw [sbi_val]; ring)
  refine ⟨⟨rfl, ?_, ?_⟩, ⟨hcorner.1, hcorner.2, ?_⟩, ⟨fun j => mem_rowScan N i j hi, ?_,
    rowScan_nodup N i⟩, ⟨fun j => mem_colScan N i j hi, ?_, colScan_nodup N i hN⟩,
    ⟨fun j => mem_subScan N i j hi, subScan_length N i hN, subScan_nodup N i hi⟩, ?_⟩
  · rw [rbi_val, Nat.mul_comm]
  · have e1 := rbi_eq N (i / (N * N))
    have e2 := rbi_eq N (i % (N * N))
    rw [sbi_val, e1, e2]
    ring
  · intro j _ hj
    obtain ⟨h1, h2⟩ := hj
    rw [hdm.1, hdm.2, Nat.add_zero, ← h1, ← h2]
    exact ⟨Nat.mul_div_le _ _, Nat.mul_div_le _ _⟩
  · rw [rowScan_eq, List.length_map, List.length_range]
  · rw [colScan_eq N i hN, List.length_map, List.length_range]
  · intro M t hlen
    exact valid_move_true_iff_scans N M i t hlen hi

theorem valid_move_base_indices_witness :
    7 < 2 ^ 4 ∧ (cbi 2 7 = 3 ∧ rbi 2 7 = 4 ∧ sbi 2 7 = 2) ∧
    rowScan 2 7 = [4, 5, 6, 7] ∧ colScan 2 7 = [3, 7, 11, 15] ∧ subScan 2 7 = [2, 3, 6, 7] ∧
    (∀ j, j ∈ subScan 2 7 ↔ (j < 2 ^ 4 ∧ inSub 2 (7 / (2 * 2) / 2) (7 % (2 * 2) / 2) j)) :=
  ⟨by decide, by decide, by decide, by decide, by decide,
    (valid_move_base_indices 2 7 (by decide)).2.2.2.2.1.1⟩

theorem hit_some_lt (B : Board) (t j : Nat) (u : Unit) (r : Flow Bool Unit)
    (h : hit B t j u = some r) : j < B.length := by
  unfold hit at h
  cases hx : B[j]? with
  | none => rw [hx] at h; exact absurd h (by simp)
  | some x => exact lt_length_of_get hx

theorem mark_some_lt (B : Board) (j : Nat) (bs : List Bool) (r : Flow Bool (List Bool))
    (h : mark B j bs = some r) : j < B.length ∧ ∃ x, B[j]? = some x ∧ x < bs.length := by
  unfold mark at h
  cases hx : B[j]? with
  | none => rw [hx] at h; exact absurd h (by simp)
  | some x =>
    rw [hx] at h
    refine ⟨lt_length_of_get hx, x, rfl, ?_⟩
    by_contra hlt
    simp [bitsetSet, hlt] at h

/-- C16: for `N ≥ 1` and a board of exactly `N^4` cells with values in
`[0, N^2]`, all four operations are total: `valid_move` (at any `i < N^4`, for
any value), `is_solved`, `solvable` and `solve` return a verdict, so no read of
the board and no marker position was out of range. A read that yields a result
is at an index below the board length, and a marking that yields a result is at
a position of the marker set, which has `N^2 + 1` positions. -/
theorem operations_total (N : Nat) (M : Board) (hN : 1 ≤ N)
    (hlen : M.length = N ^ 4) (hrange : ∀ x ∈ M, x ≤ N ^ 2) :
    (∀ i t, i < N ^ 4 → (valid_move N M i t = some true ∨ valid_move N M i t = some false)) ∧
    (is_solved N M = some true ∨ is_solved N M = some false) ∧
    (solvable N M = some (true, M) ∨ solvable N M = some (false, M)) ∧
    (∃ b M1, solve N M = some (b, M1) ∧ M1.length = N ^ 4) ∧
    (∀ (B : Board) (t j : Nat) (u : Unit) (r : Flow Bool Unit),
      hit B t j u = some r → j < B.length) ∧
    (∀ (B : Board) (j : Nat) (bs : List Bool) (r : Flow Bool (List Bool)),
      mark B j bs = some r → j < B.length ∧ ∃ x, B[j]? = some x ∧ x < bs.length) ∧
    (bitsetNew (N * N)).length = N ^ 2 + 1 := by
  have hM := wellFormed_of hlen hrange
  refine ⟨?_, ?_, ?_, ?_, hit_some_lt, mark_some_lt, by simp [bitsetNew, pow_two]⟩
  · intro i t hi
    rw [pow4] at hi
    rcases valid_move_spec N M i t hM.length_eq hi with ⟨hv, _⟩ | ⟨hv, _⟩
    · exact Or.inl hv
    · exact Or.inr hv
  · rcases is_solved_scan N M hN hM with ⟨hs, _⟩ | ⟨hs, _⟩
    · exact Or.inl hs
    · exact Or.inr hs
  · rcases solvable_spec N M hM.length_eq with ⟨hs, _⟩ | ⟨hs, _⟩
    · exact Or.inl hs
    · exact Or.inr hs
  · rcases solve_spec N M hN hM with ⟨M1, hs, hf⟩ | ⟨hs, _⟩
    · exact ⟨true, M1, hs, by rw [hf.2.1.length_eq, pow4]⟩
    · exact ⟨false, M, hs, hlen⟩

/-- C17: for `N ≥ 1` and a board of `N^4` cells with values in `[0, N^2]`,
`solve` returns a verdict, and the board it leaves has `N^4` cells, all in
`[0, N^2]`; when the verdict is true all of them are in `[1, N^2]`. -/
theorem solve_cells_in_range (N : Nat) (M : Board) (hN : 1 ≤ N)
    (hlen : M.length = N ^ 4) (hrange : ∀ x ∈ M, x ≤ N ^ 2) :
    (∃ b M1, solve N M = some (b, M1)) ∧
    ∀ b M1, solve N M = some (b, M1) →
      M1.length = N ^ 4 ∧ (∀ x ∈ M1, x ≤ N ^ 2) ∧ (b = true → ∀ x ∈ M1, 1 ≤ x) := by
  rcases solve_spec N M hN (wellFormed_of hlen hrange) with ⟨M2, hs, hf⟩ | ⟨hs, _⟩
  · refine ⟨⟨true, M2, hs⟩, ?_⟩
    intro b M1 h
    rw [hs] at h
    have hM1 : M2 = M1 := congrArg Prod.snd (Option.some.inj h)
    subst hM1
    refine ⟨by rw [hf.2.1.length_eq, pow4], ?_, ?_⟩
    · intro x hx
      obtain ⟨j, hj⟩ := List.mem_iff_getElem?.mp hx
      rw [pow_two]
      exact hf.2.1.cell_le j x hj
    · intro _ x hx
      obtain ⟨j, hj⟩ := List.mem_iff_getElem?.mp hx
      have hjl : j < N * N * (N * N) := by
        rw [← hf.2.1.length_eq]; exact lt_length_of_get hj
      obtain ⟨d, hd1, _, hd⟩ := (hf.solution hN).2.2.cell_range hjl
      rw [hj] at hd
      rw [Option.some.inj hd]
      exact hd1
  · refine ⟨⟨false, M, hs⟩, ?_⟩
    intro b M1 h
    rw [hs] at h
    have hp := Option.some.inj h
    have hM1 : M = M1 := congrArg Prod.snd hp
    have hb : false = b := congrArg Prod.fst hp
    subst hM1
    subst hb
    exact ⟨hlen, hrange, fun hc => absurd hc (by simp)⟩

/-- C18: for a board of `N^4` cells and an index `i < N^4` (so `N ≥ 1`),
`valid_move` returns false for the value the cell `i` holds (zero included),
because cell `i` is among the cells read by the row, the column and the subgrid
scan; on the board with cell `i` cleared, as `solvable` calls it, a nonzero
value of the cell is accepted exactly when no other cell of a unit of `i`
holds it. -/
theorem valid_move_rejects_own_value (N : Nat) (M : Board) (i : Nat)
    (hlen : M.length = N ^ 4) (hi : i < N ^ 4) :
    (∃ x, M[i]? = some x ∧ valid_move N M i x = some false) ∧
    (i ∈ rowScan N i ∧ i ∈ colScan N i ∧ i ∈ subScan N i) ∧
    (∀ x, M[i]? = some x → x ≠ 0 →
      (valid_move N (M.set i 0) i x = some true ↔ ¬ Conflict N M i)) := by
  rw [pow4] at hlen hi
  have hx : M[i]? = some M[i] := List.getElem?_eq_getElem (by rw [hlen]; exact hi)
  refine ⟨⟨M[i], hx, ?_⟩, ⟨?_, ?_, ?_⟩, ?_⟩
  · rcases valid_move_spec N M i M[i] hlen hi with ⟨_, hp⟩ | ⟨hv, _⟩
    · exact absurd hx (hp i hi (peer_self N i))
    · exact hv
  · exact (mem_rowScan N i i hi).mpr ⟨hi, rfl⟩
  · exact (mem_colScan N i i hi).mpr ⟨hi, rfl⟩
  · exact (mem_subScan N i i hi).mpr ⟨hi, rfl, rfl⟩
  · intro x hxi hx0
    exact valid_cleared_iff N M hlen i x hi hxi hx0

/-- C19: `solvable` is not sufficient for a solution: on the 4×4 board
(`N = 2`) whose cells 0, 1, 2 hold 1, 2, 3, whose cell 7 holds 4 and whose other
cells are 0, `solvable` returns true and `solve` returns false. -/
theorem solvable_not_sufficient :
    stuck4 = [1, 2, 3, 0, 0, 0, 0, 4, 0, 0, 0, 0, 0, 0, 0, 0] ∧
    solvable 2 stuck4 = some (true, stuck4) ∧ solve 2 stuck4 = some (false, stuck4) :=
  ⟨rfl, by decide, by decide⟩

theorem operations_total_witness :
    (1 ≤ 2 ∧ given4.length = 2 ^ 4 ∧ ∀ x ∈ given4, x ≤ 2 ^ 2) ∧
    (is_solved 2 given4 = some true ∨ is_solved 2 given4 = some false) ∧
    (∃ b M1, solve 2 given4 = some (b, M1) ∧ M1.length = 2 ^ 4) :=
  ⟨⟨by decide, by decide, by decide⟩,
    (operations_total 2 given4 (by decide) (by decide) (by decide)).2.1,
    (operations_total 2 given4 (by decide) (by decide) (by decide)).2.2.2.1⟩

theorem solve_cells_in_range_witness :
    solve 2 given4 = some (true, [2, 1, 3, 4, 3, 4, 2, 1, 4, 3, 1, 2, 1, 2, 4, 3]) ∧
    (∀ x ∈ [2, 1, 3, 4, 3, 4, 2, 1, 4, 3, 1, 2, 1, 2, 4, 3], x ≤ 2 ^ 2) ∧
    (∀ x ∈ [2, 1, 3, 4, 3, 4, 2, 1, 4, 3, 1, 2, 1, 2, 4, 3], 1 ≤ x) :=
  ⟨by decide,
    ((solve_cells_in_range 2 given4 (by decide) (by decide) (by decide)).2 true _
      (by decide)).2.1,
    ((solve_cells_in_range 2 given4 (by decide) (by decide) (by decide)).2 true _
      (by decide)).2.2 rfl⟩

theorem valid_move_rejects_own_value_witness :
    (given4.length = 2 ^ 4 ∧ 5 < 2 ^ 4) ∧
    (∃ x, given4[5]? = some x ∧ valid_move 2 given4 5 x = some false) :=
  ⟨⟨by decide, by decide⟩,
    (valid_move_rejects_own_value 2 given4 5 (by decide) (by decide)).1⟩

/-! ## Termination of the search, whatever the final check -/

theorem attemptWith_zero (N : Nat) (check : Board → Option Bool) (i : Nat) (M : Board) :
    attemptWith N check 0 i M = none := rfl

theorem attemptWith_succ (N : Nat) (check : Board → Option Bool) (fuel i : Nat) (M : Board) :
    attemptWith N check (fuel + 1) i M =
      if i = N * N * (N * N) then
        match check M with
        | none => none
        | some b => some (b, M)
      else
        match M[i]? with
        | none => none
        | some x =>
          if x ≠ 0 then attemptWith N check fuel (i + 1) M
          else
            match forRange 1 (N * N + 1) 1
                (candidate N i (attemptWith N check fuel (i + 1))) M with
            | none => none
            | some (Flow.ret r) => some r
            | some (Flow.next M1) => some (false, M1.set i 0) := rfl

/-- The search `attempt` is `attemptWith` at the check `is_solved`. -/
theorem attempt_eq_attemptWith (N : Nat) :
    ∀ fuel i (M : Board), attempt N fuel i M = attemptWith N (is_solved N) fuel i M := by
  intro fuel
  induction fuel with
  | zero => intro i M; rfl
  | succ n ih =>
    intro i M
    have hrest : attempt N n (i + 1) = attemptWith N (is_solved N) n (i + 1) :=
      funext (fun B => ih (i + 1) B)
    rw [attempt_succ, attemptWith_succ, hrest]

/-- With a final check that returns on every board of `N^4` cells, the search
returns at cell `i ≤ N^4` of any board of `N^4` cells, of any values, with any
fuel of at least `N^4 + 1 - i`. -/
theorem attemptWith_total (N : Nat) (check : Board → Option Bool)
    (hcheck : ∀ B : Board, B.length = N * N * (N * N) → ∃ b, check B = some b) :
    ∀ fuel i (B : Board), B.length = N * N * (N * N) → i ≤ N * N * (N * N) →
      N * N * (N * N) + 1 - i ≤ fuel →
      ∃ b B1, attemptWith N check fuel i B = some (b, B1) ∧ B1.length = N * N * (N * N) := by
  intro fuel
  induction fuel with
  | zero => intro i B _ hi hf; omega
  | succ n ih =>
    intro i B hB hi hf
    rw [attemptWith_succ]
    by_cases hts : i = N * N * (N * N)
    · rw [if_pos hts]
      obtain ⟨b, hb⟩ := hcheck B hB
      exact ⟨b, B, by rw [hb], hB⟩
    · rw [if_neg hts]
      have hi1 : i < N * N * (N * N) := by omega
      have hx : B[i]? = some B[i] := List.getElem?_eq_getElem (by rw [hB]; exact hi1)
      rw [hx]
      dsimp only
      by_cases h0 : B[i] = 0
      · rw [if_neg (by simpa using h0)]
        have key := forLoop_total (N * N + 1) 1
          (candidate N i (attemptWith N check n (i + 1)))
          (fun _ s => s.length = N * N * (N * N))
          (fun r => r.2.length = N * N * (N * N)) Nat.one_pos
          (by
            intro t s _ hs
            unfold candidate
            rcases valid_move_spec N s i t hs hi1 with ⟨hv, _⟩ | ⟨hv, _⟩
            · rw [hv]
              dsimp only
              obtain ⟨b, B1, hrec, hB1⟩ := ih (i + 1) (s.set i t)
                (by rw [List.length_set]; exact hs) (by omega) (by omega)
              rw [hrec]
              cases b with
              | true => exact ⟨Flow.ret (true, B1), rfl, hB1⟩
              | false => exact ⟨Flow.next B1, rfl, hB1⟩
            · rw [hv]
              exact ⟨Flow.next s, rfl, hs⟩)
          (N * N + 1 - 1) 1 B (le_refl _) hB
        obtain ⟨r, hr, hsat⟩ := key
        unfold forRange
        rw [hr]
        cases r with
        | ret p => exact ⟨p.1, p.2, rfl, hsat⟩
        | next M1 =>
          obtain ⟨_, _, hM1⟩ := hsat
          exact ⟨false, M1.set i 0, rfl, by rw [List.length_set]; exact hM1⟩
      · rw [if_pos (by simpa using h0)]
        exact ih (i + 1) B hB (by omega) (by omega)

/-- Simulation of a loop by one whose body does the same, except that where
the second returns a value marked `Bad` the first may yield none. -/
theorem forLoop_sim {ρ σ : Type} (hi step : Nat) (body1 body2 : Nat → σ → Option (Flow ρ σ))
    (Bad : ρ → Prop)
    (hbody : ∀ j s r, body2 j s = some r →
      body1 j s = some r ∨ ∃ x, r = Flow.ret x ∧ Bad x ∧ body1 j s = none) :
    ∀ fuel j s r, forLoop hi step body2 fuel j s = some r →
      forLoop hi step body1 fuel j s = some r ∨
      ∃ x, r = Flow.ret x ∧ Bad x ∧ forLoop hi step body1 fuel j s = none := by
  intro fuel
  induction fuel with
  | zero =>
    intro j s r h
    exact Or.inl h
  | succ n ih =>
    intro j s r h
    rw [forLoop_succ] at h ⊢
    by_cases hj : j < hi
    · rw [if_pos hj] at h ⊢
      cases hb2 : body2 j s with
      | none => rw [hb2] at h; exact absurd h (by simp)
      | some r2 =>
        rw [hb2] at h
        rcases hbody j s r2 hb2 with hb1 | ⟨x, rfl, hbad, hb1⟩
        · rw [hb1]
          cases r2 with
          | ret x => exact Or.inl h
          | next s1 => exact ih (j + step) s1 r h
        · rw [hb1]
          dsimp only at h
          exact Or.inr ⟨x, (Option.some.inj h).symm, hbad, rfl⟩
    · rw [if_neg hj] at h ⊢
      exact Or.inl h

/-- The search with the exception of the final check caught, against the
search itself: they end alike, except that where the first ends at a board on
which `is_solved` yields no verdict, the second yields none. -/
theorem attempt_of_caught (N : Nat) :
    ∀ fuel i (B : Board) (b : Bool) (B1 : Board),
      attemptWith N (caught N) fuel i B = some (b, B1) →
      attempt N fuel i B = some (b, B1) ∨
      (b = true ∧ is_solved N B1 = none ∧ attempt N fuel i B = none) := by
  intro fuel
  induction fuel with
  | zero =>
    intro i B b B1 h
    rw [attemptWith_zero] at h
    exact absurd h (by simp)
  | succ n ih =>
    intro i B b B1 h
    rw [attemptWith_succ] at h
    rw [attempt_succ]
    by_cases hts : i = N * N * (N * N)
    · rw [if_pos hts] at h ⊢
      unfold caught at h
      cases hs : is_solved N B with
      | none =>
        rw [hs] at h
        dsimp only at h
        have hp := Option.some.inj h
        have hb : true = b := congrArg Prod.fst hp
        have hB : B = B1 := congrArg Prod.snd hp
        subst hB
        exact Or.inr ⟨hb.symm, hs, rfl⟩
      | some b1 =>
        rw [hs] at h
        exact Or.inl h
    · rw [if_neg hts] at h ⊢
      cases hx : B[i]? with
      | none => rw [hx] at h; exact absurd h (by simp)
      | some x =>
        rw [hx] at h
        dsimp only at h ⊢
        by_cases h0 : x = 0
        · rw [if_neg (by simpa using h0)] at h ⊢
          cases hloop : forRange 1 (N * N + 1) 1
              (candidate N i (attemptWith N (caught N) n (i + 1))) B with
          | none => rw [hloop] at h; exact absurd h (by simp)
          | some r2 =>
            rw [hloop] at h
            have hsim := forLoop_sim (N * N + 1) 1 (candidate N i (attempt N n (i + 1)))
              (candidate N i (attemptWith N (caught N) n (i + 1)))
              (fun p => p.1 = true ∧ is_solved N p.2 = none)
              (by
                intro t s r hc
                unfold candidate at hc ⊢
                cases hv : valid_move N s i t with
                | none =>
                  try rw [hv] at hc
                  exact absurd hc (by simp)
                | some v =>
                  try rw [hv] at hc
                  cases v with
                  | false => exact Or.inl hc
                  | true =>
                    dsimp only at hc ⊢
                    cases hrec : attemptWith N (caught N) n (i + 1) (s.set i t) with
                    | none => rw [hrec] at hc; exact absurd hc (by simp)
                    | some p =>
                      obtain ⟨b2, M2⟩ := p
                      rw [hrec] at hc
                      rcases ih (i + 1) (s.set i t) b2 M2 hrec with ha | ⟨hb2, hs2, ha⟩
                      · rw [ha]
                        exact Or.inl hc
                      · rw [ha]
                        subst hb2
                        dsimp only at hc
                        exact Or.inr ⟨(true, M2), (Option.some.inj hc).symm, ⟨rfl, hs2⟩, rfl⟩)
              (N * N + 1 - 1) 1 B r2 hloop
            unfold forRange
            rcases hsim with ha | ⟨p, rfl, ⟨hp1, hp2⟩, ha⟩
            · rw [ha]
              exact Or.inl h
            · rw [ha]
              dsimp only at h
              have hp := Option.some.inj h
              subst hp
              exact Or.inr ⟨hp1, hp2, rfl⟩
        · rw [if_pos h0] at h ⊢
          exact ih (i + 1) B b B1 h

/-- On a board of `N^4` cells `is_solved` yields no verdict only when a cell is
above `N^2`: the marker position is out of range. -/
theorem is_solved_none_cell (N : Nat) (B : Board) (hN : 0 < N)
    (hlen : B.length = N * N * (N * N)) (h : is_solved N B = none) :
    ∃ x, x ∈ B ∧ N * N < x := by
  by_contra hcon
  have hWF : WellFormed N B := by
    refine ⟨hlen, ?_⟩
    intro j x hx
    by_contra hx2
    exact hcon ⟨x, List.mem_iff_getElem?.mpr ⟨j, hx⟩, Nat.lt_of_not_le hx2⟩
  rcases is_solved_scan N B hN hWF with ⟨hs, _⟩ | ⟨hs, _⟩
  · rw [hs] at h; exact absurd h (by simp)
  · rw [hs] at h; exact absurd h (by simp)

theorem caught_total (N : Nat) (B : Board) : ∃ b, caught N B = some b := by
  unfold caught
  cases is_solved N B with
  | none => exact ⟨true, rfl⟩
  | some b => exact ⟨b, rfl⟩

/-- C14: for `N ≥ 1` and a board of `N^4` cells, of any values, `solve`
terminates. The search `attempt` is `attemptWith` at the final check
`is_solved`, and with any final check that returns, `attemptWith` returns at
cell `i ≤ N^4` with any fuel of at least `N^4 + 1 - i`: the recursion goes from
`i` to `i + 1`, stops at `i = N^4`, where only the check is called, and the
candidate loop needs at most `N^2` iterations. More fuel never changes the
outcome of `attempt`, so `solve` is `attempt` at cell 0 with any fuel of at least
`N^4 + 1`. On the board `M` the search with the exception of `is_solved` caught
ends with a verdict `b` and a board `B`, and `solve` returns just that, unless
`b` stands for the exception: then `is_solved` yields no verdict on `B`, which
holds a cell above `N^2`, and `solve` yields none. With values in `[0, N^2]`,
`solve` returns a verdict. -/
theorem solve_terminates (N : Nat) (M : Board) (hN : 1 ≤ N) (hlen : M.length = N ^ 4) :
    (∀ fuel i (B : Board), attempt N fuel i B = attemptWith N (is_solved N) fuel i B) ∧
    (∀ check : Board → Option Bool,
      (∀ B : Board, B.length = N ^ 4 → ∃ b, check B = some b) →
      ∀ fuel i (B : Board), B.length = N ^ 4 → i ≤ N ^ 4 → N ^ 4 + 1 - i ≤ fuel →
        ∃ b B1, attemptWith N check fuel i B = some (b, B1) ∧ B1.length = N ^ 4) ∧
    (∃ b B, attemptWith N (caught N) (N ^ 4 + 1) 0 M = some (b, B) ∧ B.length = N ^ 4 ∧
      (solve N M = some (b, B) ∨
        (b = true ∧ is_solved N B = none ∧ (∃ x, x ∈ B ∧ N ^ 2 < x) ∧ solve N M = none))) ∧
    (∀ fuel i (B : Board), B.length = N ^ 4 → i ≤ N ^ 4 → N ^ 4 + 1 - i ≤ fuel →
      attempt N fuel i B = attempt N (N ^ 4 + 1 - i) i B) ∧
    (∀ fuel (B : Board), attempt N (fuel + 1) (N ^ 4) B =
      match is_solved N B with
      | none => none
      | some b => some (b, B)) ∧
    (∀ fuel (body : Nat → Board → Option (Flow (Bool × Board) Board)) (s : Board),
      N ^ 2 ≤ fuel →
      forLoop (N ^ 2 + 1) 1 body fuel 1 s = forRange 1 (N ^ 2 + 1) 1 body s) ∧
    (∀ fuel, N ^ 4 + 1 ≤ fuel → attempt N fuel 0 M = solve N M) ∧
    ((∀ x ∈ M, x ≤ N ^ 2) → ∃ b M1, solve N M = some (b, M1)) := by
  have hlen1 : M.length = N * N * (N * N) := by rw [hlen, pow4]
  refine ⟨attempt_eq_attemptWith N, ?_, ?_, ?_, ?_, ?_, ?_, ?_⟩
  · intro check hcheck fuel i B hB hi hf
    rw [pow4] at hcheck hB hi hf ⊢
    exact attemptWith_total N check hcheck fuel i B hB hi hf
  · rw [pow4, pow_two]
    obtain ⟨b, B, hrun, hB⟩ := attemptWith_total N (caught N)
      (fun B _ => caught_total N B) (N * N * (N * N) + 1) 0 M hlen1 (Nat.zero_le _) (le_refl _)
    refine ⟨b, B, hrun, hB, ?_⟩
    rcases attempt_of_caught N _ 0 M b B hrun with ha | ⟨hb, hs, ha⟩
    · exact Or.inl ha
    · exact Or.inr ⟨hb, hs, is_solved_none_cell N B hN hB hs, ha⟩
  · intro fuel i B hB hi hf
    rw [pow4] at hB hi hf ⊢
    exact attempt_fuel N fuel _ i B hB hi hf (le_refl _)
  · intro fuel B
    rw [attempt_succ, pow4, if_pos rfl]
  · intro fuel body s hf
    unfold forRange
    exact forLoop_fuel (N ^ 2 + 1) 1 body Nat.one_pos fuel _ 1 s (by omega) (le_refl _)
  · intro fuel hf
    rw [pow4] at hf
    exact attempt_fuel N fuel _ 0 M hlen1 (Nat.zero_le _) (by omega) (le_refl _)
  · intro hrange
    rcases solve_spec N M hN (wellFormed_of hlen hrange) with ⟨M1, hs, _⟩ | ⟨hs, _⟩
    · exact ⟨true, M1, hs⟩
    · exact ⟨false, M, hs⟩

theorem solve_terminates_witness :
    (1 ≤ 2 ∧ wild4.length = 2 ^ 4 ∧ over4.length = 2 ^ 4) ∧
    solve 2 wild4 = some (false, wild4) ∧
    (∃ b B, attemptWith 2 (caught 2) (2 ^ 4 + 1) 0 wild4 = some (b, B) ∧ B.length = 2 ^ 4 ∧
      (solve 2 wild4 = some (b, B) ∨
        (b = true ∧ is_solved 2 B = none ∧ (∃ x, x ∈ B ∧ 2 ^ 2 < x) ∧ solve 2 wild4 = none))) ∧
    (solve 2 over4 = none ∧ is_solved 2 over4 = none) ∧
    (∃ b B, attemptWith 2 (caught 2) (2 ^ 4 + 1) 0 over4 = some (b, B) ∧ B.length = 2 ^ 4 ∧
      (solve 2 over4 = some (b, B) ∨
        (b = true ∧ is_solved 2 B = none ∧ (∃ x, x ∈ B ∧ 2 ^ 2 < x) ∧ solve 2 over4 = none))) :=
  ⟨⟨by decide, by decide, by decide⟩, by decide,
    (solve_terminates 2 wild4 (by decide) (by decide)).2.2.1,
    ⟨by decide, by decide⟩,
    (solve_terminates 2 over4 (by decide) (by decide)).2.2.1⟩

end sudoku
